import Mathlib

/-!
# Verification of the MPI word-count coordinator/worker program

Shallow embedding of `main.c` of the `mpi-pcpc` repository: the histogram
data structure and its operations (`add_word_to_histogram`, `merge_histograms`,
`sort_histogram_by_word`, `write_histogram_to_csv`), the tokenizer
(`count_words_in_file`), the file-list loader, and the coordinator/worker
message-passing protocol of `main`, modelled as a labelled transition system
with one message queue per direction per worker (MPI point-to-point channels
are order-preserving per sender/receiver pair; receives match on tag).

Machine integers of the C program are modelled as `Nat`; words are `List Char`
(C strings are NUL-terminated `char[100]` buffers holding at most 99 usable
characters, compared with `strncmp(..., MAX_WORD_LEN)`, which on such buffers
is exactly string equality).
-/

/-- `MAX_WORD_LEN` from the C source: word buffers hold at most 99 usable
characters plus a terminating NUL. -/
def MAX_WORD_LEN : Nat := 100

/-- `MAX_FILES` from the C source: capacity of the coordinator's `file_list`. -/
def MAX_FILES : Nat := 100

/-- A word as stored in a `WordFreq.word` buffer. -/
abbrev Word := List Char

/-- A file path, as stored in `file_list` rows. -/
abbrev FPath := List Char

/-- One histogram entry: the `WordFreq` struct of the C source. -/
structure WordFreq where
  word : Word
  frequency : Nat
  deriving DecidableEq, Repr

/-- A histogram: the `Histogram` struct. The C struct is a growable array of
`WordFreq` entries; capacity management (`ensure_capacity`) only affects
allocation, not content, so the content is a list of entries. -/
abbrev Histogram := List WordFreq

/-- The body of the outer loop of `merge_histograms` in the C source for one
source entry `(w, f)`: scan `dest` for the first entry whose word equals `w`
(`strncmp == 0`); add `f` to its frequency on a hit, otherwise append a new
entry carrying frequency `f`. -/
def add_freq : Histogram → Word → Nat → Histogram
  | [], w, f => [⟨w, f⟩]
  | e :: rest, w, f =>
    if e.word = w then ⟨e.word, e.frequency + f⟩ :: rest
    else e :: add_freq rest w f

/-- `add_word_to_histogram` from the C source: scan for the word, increment
its frequency on a hit, otherwise append a new entry with frequency 1. -/
def add_word_to_histogram : Histogram → Word → Histogram
  | [], w => [⟨w, 1⟩]
  | e :: rest, w =>
    if e.word = w then ⟨e.word, e.frequency + 1⟩ :: rest
    else e :: add_word_to_histogram rest w

/-- `merge_histograms` from the C source: fold `add_freq` over the source
entries in order. -/
def merge_histograms : Histogram → Histogram → Histogram
  | dest, [] => dest
  | dest, e :: rest => merge_histograms (add_freq dest e.word e.frequency) rest

/-- The word-to-frequency mapping denoted by a histogram: the frequency of the
first entry whose word matches, the same scan order used by
`add_word_to_histogram` and `merge_histograms`; 0 when absent. -/
def freqOf : Histogram → Word → Nat
  | [], _ => 0
  | e :: rest, w => if e.word = w then e.frequency else freqOf rest w

/-- Sum of the frequencies of all entries carrying a given word (equal to
`freqOf` on histograms with distinct keys). -/
def sumFreq : Histogram → Word → Nat
  | [], _ => 0
  | e :: rest, w => (if e.word = w then e.frequency else 0) + sumFreq rest w

/-- Total frequency over all entries of a histogram. -/
def totalFreq (h : Histogram) : Nat := (h.map (fun e => e.frequency)).sum

/-- The words of a histogram, in entry order. -/
def keysOf (h : Histogram) : List Word := h.map (fun e => e.word)

/-- Well-formedness maintained by the C program for every histogram it builds:
keys are pairwise distinct and every frequency is positive. -/
def WF (h : Histogram) : Prop := (keysOf h).Nodup ∧ ∀ e ∈ h, 1 ≤ e.frequency

theorem keysOf_cons (e : WordFreq) (h : Histogram) :
    keysOf (e :: h) = e.word :: keysOf h := rfl

theorem add_word_eq_add_freq (h : Histogram) (w : Word) :
    add_word_to_histogram h w = add_freq h w 1 := by
  induction h with
  | nil => rfl
  | cons e rest ih =>
    by_cases he : e.word = w <;> simp [add_word_to_histogram, add_freq, he, ih]

theorem freqOf_add_freq (h : Histogram) (w : Word) (f : Nat) (v : Word) :
    freqOf (add_freq h w f) v = freqOf h v + (if w = v then f else 0) := by
  induction h with
  | nil => by_cases hv : w = v <;> simp [add_freq, freqOf, hv]
  | cons e rest ih =>
    by_cases he : e.word = w
    · by_cases hv : e.word = v
      · have hwv : w = v := he.symm.trans hv
        simp only [add_freq, if_pos he, freqOf, if_pos hv, if_pos hwv]
      · have hwv : ¬ w = v := fun hc => hv (he.trans hc)
        simp only [add_freq, if_pos he, freqOf, if_neg hv, if_neg hwv]
        omega
    · by_cases hv : e.word = v
      · have hwv : ¬ w = v := fun hc => he (hv.trans hc.symm)
        simp only [add_freq, if_neg he, freqOf, if_pos hv, if_neg hwv]
        omega
      · simp only [add_freq, if_neg he, freqOf, if_neg hv, ih]

theorem sumFreq_add_freq (h : Histogram) (w : Word) (f : Nat) (v : Word) :
    sumFreq (add_freq h w f) v = sumFreq h v + (if w = v then f else 0) := by
  induction h with
  | nil => by_cases hv : w = v <;> simp [add_freq, sumFreq, hv]
  | cons e rest ih =>
    by_cases he : e.word = w
    · subst he
      by_cases hv : e.word = v <;> simp [add_freq, sumFreq, hv] <;> omega
    · simp [add_freq, sumFreq, he, ih]
      omega

theorem totalFreq_add_freq (h : Histogram) (w : Word) (f : Nat) :
    totalFreq (add_freq h w f) = totalFreq h + f := by
  induction h with
  | nil => simp [add_freq, totalFreq]
  | cons e rest ih =>
    by_cases he : e.word = w <;> simp [add_freq, totalFreq, he] <;>
      simp [totalFreq] at ih <;> omega

theorem keysOf_add_freq (h : Histogram) (w : Word) (f : Nat) :
    keysOf (add_freq h w f) = if w ∈ keysOf h then keysOf h else keysOf h ++ [w] := by
  induction h with
  | nil => simp [add_freq, keysOf]
  | cons e rest ih =>
    by_cases he : e.word = w
    · have hm : w ∈ e.word :: keysOf rest := by
        rw [he]; exact List.mem_cons_self _ _
      simp only [add_freq, if_pos he, keysOf_cons, if_pos hm]
    · have hne : ¬ w = e.word := fun hc => he hc.symm
      by_cases hm : w ∈ keysOf rest
      · have hm2 : w ∈ e.word :: keysOf rest := List.mem_cons_of_mem _ hm
        simp only [add_freq, if_neg he, keysOf_cons, if_pos hm2, ih, if_pos hm]
      · have hm2 : w ∉ e.word :: keysOf rest := by
          intro hc
          rcases List.mem_cons.mp hc with hc | hc
          · exact hne hc
          · exact hm hc
        simp only [add_freq, if_neg he, keysOf_cons, if_neg hm2, ih, if_neg hm,
          List.cons_append]

theorem nodup_keysOf_add_freq (h : Histogram) (w : Word) (f : Nat)
    (hn : (keysOf h).Nodup) : (keysOf (add_freq h w f)).Nodup := by
  rw [keysOf_add_freq]
  by_cases hm : w ∈ keysOf h
  · simpa [hm] using hn
  · simp [hm, List.nodup_append, hn]

theorem pos_add_freq (h : Histogram) (w : Word) (f : Nat)
    (hp : ∀ e ∈ h, 1 ≤ e.frequency) (hf : 1 ≤ f) :
    ∀ e ∈ add_freq h w f, 1 ≤ e.frequency := by
  induction h with
  | nil => simpa [add_freq] using hf
  | cons e rest ih =>
    by_cases he : e.word = w
    · intro x hx
      simp only [add_freq, he, if_pos rfl] at hx
      rcases List.mem_cons.mp hx with hx | hx
      · subst hx; have := hp e (List.mem_cons_self e rest); simp; omega
      · exact hp x (List.mem_cons_of_mem e hx)
    · intro x hx
      simp only [add_freq, he, if_neg he] at hx
      rcases List.mem_cons.mp hx with hx | hx
      · subst hx; exact hp x (List.mem_cons_self x rest)
      · exact ih (fun y hy => hp y (List.mem_cons_of_mem e hy)) x hx

theorem WF_add_freq {h : Histogram} {w : Word} {f : Nat}
    (hw : WF h) (hf : 1 ≤ f) : WF (add_freq h w f) :=
  ⟨nodup_keysOf_add_freq h w f hw.1, pos_add_freq h w f hw.2 hf⟩

theorem freqOf_merge (s : Histogram) : ∀ (d : Histogram) (w : Word),
    freqOf (merge_histograms d s) w = freqOf d w + sumFreq s w := by
  induction s with
  | nil => intro d w; simp [merge_histograms, sumFreq]
  | cons e rest ih =>
    intro d w
    simp only [merge_histograms, sumFreq]
    rw [ih, freqOf_add_freq]
    omega

theorem sumFreq_merge (s : Histogram) : ∀ (d : Histogram) (w : Word),
    sumFreq (merge_histograms d s) w = sumFreq d w + sumFreq s w := by
  induction s with
  | nil => intro d w; simp [merge_histograms, sumFreq]
  | cons e rest ih =>
    intro d w
    simp only [merge_histograms, sumFreq]
    rw [ih, sumFreq_add_freq]
    omega

theorem totalFreq_merge (s : Histogram) : ∀ (d : Histogram),
    totalFreq (merge_histograms d s) = totalFreq d + totalFreq s := by
  induction s with
  | nil => intro d; simp [merge_histograms, totalFreq]
  | cons e rest ih =>
    intro d
    simp only [merge_histograms]
    rw [ih, totalFreq_add_freq]
    simp [totalFreq]
    omega

theorem sumFreq_eq_zero_of_not_mem {h : Histogram} {w : Word}
    (hm : w ∉ keysOf h) : sumFreq h w = 0 := by
  induction h with
  | nil => rfl
  | cons e rest ih =>
    simp only [keysOf, List.map_cons, List.mem_cons] at hm
    push_neg at hm
    have : ¬ e.word = w := fun hc => hm.1 hc.symm
    simp [sumFreq, this, ih (by simpa [keysOf] using hm.2)]

theorem freqOf_eq_zero_of_not_mem {h : Histogram} {w : Word}
    (hm : w ∉ keysOf h) : freqOf h w = 0 := by
  induction h with
  | nil => rfl
  | cons e rest ih =>
    simp only [keysOf, List.map_cons, List.mem_cons] at hm
    push_neg at hm
    have : ¬ e.word = w := fun hc => hm.1 hc.symm
    simp [freqOf, this, ih (by simpa [keysOf] using hm.2)]

theorem sumFreq_eq_freqOf {h : Histogram} (hn : (keysOf h).Nodup) (w : Word) :
    sumFreq h w = freqOf h w := by
  induction h with
  | nil => rfl
  | cons e rest ih =>
    simp only [keysOf, List.map_cons, List.nodup_cons] at hn
    by_cases he : e.word = w
    · subst he
      have : sumFreq rest e.word = 0 :=
        sumFreq_eq_zero_of_not_mem (by simpa [keysOf] using hn.1)
      simp [sumFreq, freqOf, this]
    · simp [sumFreq, freqOf, he, ih (by simpa [keysOf] using hn.2)]

theorem WF_merge {d s : Histogram} (hd : WF d) (hs : WF s) :
    WF (merge_histograms d s) := by
  induction s generalizing d with
  | nil => simpa [merge_histograms] using hd
  | cons e rest ih =>
    simp only [merge_histograms]
    have he : 1 ≤ e.frequency := hs.2 e (List.mem_cons_self e rest)
    have hrest : WF rest := by
      refine ⟨?_, fun x hx => hs.2 x (List.mem_cons_of_mem e hx)⟩
      have hk := hs.1
      rw [keysOf_cons, List.nodup_cons] at hk
      exact hk.2
    exact ih (WF_add_freq hd he) hrest

theorem WF_nil : WF [] := ⟨List.nodup_nil, by intro e he; cases he⟩

/-- C3. Merge is commutative and associative up to the word-to-frequency
mapping (`freqOf`) a histogram denotes, for histograms with distinct keys
(keys are unique within one histogram by construction): merging partial
results in any arrival order yields the same mapping as merging in task
order. -/
theorem c3_merge_commutative_associative (A B C : Histogram)
    (hA : (keysOf A).Nodup) (hB : (keysOf B).Nodup) (hC : (keysOf C).Nodup) :
    (∀ w, freqOf (merge_histograms A B) w = freqOf (merge_histograms B A) w) ∧
    (∀ w, freqOf (merge_histograms (merge_histograms A B) C) w =
          freqOf (merge_histograms A (merge_histograms B C)) w) := by
  constructor
  · intro w
    rw [freqOf_merge, freqOf_merge, sumFreq_eq_freqOf hA w, sumFreq_eq_freqOf hB w]
    omega
  · intro w
    rw [freqOf_merge, freqOf_merge, freqOf_merge, sumFreq_merge]
    have := sumFreq_eq_freqOf hC w
    omega

/-- Witness for C3 at concrete histograms. -/
theorem c3_merge_commutative_associative_witness :
    ((keysOf [⟨['a'], 2⟩]).Nodup ∧ (keysOf [⟨['a'], 1⟩, ⟨['b'], 3⟩]).Nodup ∧
      (keysOf [⟨['c'], 5⟩]).Nodup) ∧
    ((∀ w, freqOf (merge_histograms [⟨['a'], 2⟩] [⟨['a'], 1⟩, ⟨['b'], 3⟩]) w =
           freqOf (merge_histograms [⟨['a'], 1⟩, ⟨['b'], 3⟩] [⟨['a'], 2⟩]) w) ∧
     (∀ w, freqOf (merge_histograms
             (merge_histograms [⟨['a'], 2⟩] [⟨['a'], 1⟩, ⟨['b'], 3⟩]) [⟨['c'], 5⟩]) w =
           freqOf (merge_histograms [⟨['a'], 2⟩]
             (merge_histograms [⟨['a'], 1⟩, ⟨['b'], 3⟩] [⟨['c'], 5⟩])) w)) :=
  ⟨⟨by decide, by decide, by decide⟩,
   c3_merge_commutative_associative _ _ _ (by decide) (by decide) (by decide)⟩

/-- The historical one-at-a-time variant of the merge step, following the
spec's words ("re-inserts a source word one-by-one for each unit of its
frequency"): insert a word `n` times via `add_word_to_histogram`. This
variant is not in the C source; it is the comparison point of the
refinement claim C9. -/
def add_word_n_times (d : Histogram) (w : Word) : Nat → Histogram
  | 0 => d
  | Nat.succ n => add_word_n_times (add_word_to_histogram d w) w n

/-- The repeated-single-increment merge variant described by the spec. -/
def merge_histograms_repeated : Histogram → Histogram → Histogram
  | dest, [] => dest
  | dest, e :: rest => merge_histograms_repeated (add_word_n_times dest e.word e.frequency) rest

theorem freqOf_add_word_n_times (w v : Word) :
    ∀ (n : Nat) (d : Histogram),
      freqOf (add_word_n_times d w n) v = freqOf d v + (if w = v then n else 0) := by
  intro n
  induction n with
  | zero => intro d; simp [add_word_n_times]
  | succ n ih =>
    intro d
    simp only [add_word_n_times]
    rw [ih, add_word_eq_add_freq, freqOf_add_freq]
    by_cases hv : w = v <;> simp [hv] <;> omega

/-- C9. The implemented direct-addition merge and the variant that re-inserts
each source word one occurrence at a time produce the same final
word-to-frequency counts, for every pair of histograms. -/
theorem c9_merge_refines_repeated_insertion (dest source : Histogram) :
    ∀ w, freqOf (merge_histograms_repeated dest source) w =
         freqOf (merge_histograms dest source) w := by
  induction source generalizing dest with
  | nil => intro w; rfl
  | cons e rest ih =>
    intro w
    simp only [merge_histograms_repeated, merge_histograms]
    rw [ih, freqOf_merge, freqOf_merge, freqOf_add_word_n_times, freqOf_add_freq]

/-! ## Tokenizer (`count_words_in_file`) -/

/-- C `isalnum` in the default locale, on byte values: digits, upper-case
letters, lower-case letters. -/
def isAlnumByte (c : Char) : Bool :=
  (48 ≤ c.toNat && c.toNat ≤ 57) || (65 ≤ c.toNat && c.toNat ≤ 90) ||
    (97 ≤ c.toNat && c.toNat ≤ 122)

/-- C `tolower` in the default locale: map `A`–`Z` to `a`–`z`, leave every
other byte unchanged. -/
def toLowerByte (c : Char) : Char :=
  if 65 ≤ c.toNat ∧ c.toNat ≤ 90 then Char.ofNat (c.toNat + 32) else c

/-- The scanning loop of `count_words_in_file` (main.c lines 156–176). `cur`
is the current token buffer (already case-folded), `hist` the histogram built
so far. An alphanumeric byte is appended (case-folded) while the buffer holds
fewer than `MAX_WORD_LEN - 1` characters, and is silently dropped otherwise
(truncation); a non-alphanumeric byte closes a nonempty buffer into the
histogram; a pending token at end of stream is emitted. -/
def scanWords : List Char → List Char → Histogram → Histogram
  | [], cur, hist => if cur.length = 0 then hist else add_word_to_histogram hist cur
  | c :: rest, cur, hist =>
    if isAlnumByte c then
      scanWords rest (if cur.length < MAX_WORD_LEN - 1 then cur ++ [toLowerByte c] else cur) hist
    else
      if cur.length = 0 then scanWords rest cur hist
      else scanWords rest [] (add_word_to_histogram hist cur)

/-- `count_words_in_file`: a file that cannot be opened yields `none`
(the FileUnavailable outcome); otherwise the content is scanned into a fresh
histogram. -/
def count_words_in_file (contents : Option (List Char)) : Option Histogram :=
  match contents with
  | none => none
  | some s => some (scanWords s [] [])

/-- The token stream extracted by the scanning loop: the same recursion as
`scanWords`, recording the closed tokens instead of inserting them. -/
def tokenizeAux : List Char → List Char → List Word
  | [], cur => if cur.length = 0 then [] else [cur]
  | c :: rest, cur =>
    if isAlnumByte c then
      tokenizeAux rest (if cur.length < MAX_WORD_LEN - 1 then cur ++ [toLowerByte c] else cur)
    else
      if cur.length = 0 then tokenizeAux rest cur
      else cur :: tokenizeAux rest []

/-- The tokens of a byte stream. -/
def tokenize (s : List Char) : List Word := tokenizeAux s []

theorem scanWords_eq_foldl : ∀ (s cur : List Char) (hist : Histogram),
    scanWords s cur hist = (tokenizeAux s cur).foldl add_word_to_histogram hist := by
  intro s
  induction s with
  | nil =>
    intro cur hist
    by_cases h : cur.length = 0 <;> simp [scanWords, tokenizeAux, h]
  | cons c rest ih =>
    intro cur hist
    by_cases hc : isAlnumByte c
    · simp [scanWords, tokenizeAux, hc, ih]
    · by_cases h0 : cur.length = 0 <;> simp [scanWords, tokenizeAux, hc, h0, ih]

/-- The maximal runs of consecutive alphanumeric bytes of a stream, following
the spec's tokenization rule: any non-alphanumeric byte ends the current run,
consecutive separators produce no empty run, a run pending at end of stream is
still produced. -/
def runsSpec : List Char → List (List Char)
  | [] => []
  | [c] => if isAlnumByte c then [[c]] else []
  | c :: d :: rest =>
    if isAlnumByte c then
      if isAlnumByte d then
        match runsSpec (d :: rest) with
        | [] => [[c]]
        | run :: rs => (c :: run) :: rs
      else [c] :: runsSpec (d :: rest)
    else runsSpec (d :: rest)

theorem runsSpec_cons (c : Char) (rest : List Char) :
    runsSpec (c :: rest) =
      if isAlnumByte c then
        (c :: rest.takeWhile isAlnumByte) :: runsSpec (rest.dropWhile isAlnumByte)
      else runsSpec rest := by
  induction rest generalizing c with
  | nil => by_cases hc : isAlnumByte c <;> simp [runsSpec, hc]
  | cons d rest ih =>
    by_cases hc : isAlnumByte c
    · by_cases hd : isAlnumByte d
      · have hrec := ih d
        rw [if_pos hd] at hrec
        simp only [runsSpec, if_pos hc, if_pos hd, hrec]
        simp [List.takeWhile_cons_of_pos hd, List.dropWhile_cons_of_pos hd]
      · simp only [runsSpec, if_pos hc, if_neg hd]
        simp [List.takeWhile_cons_of_neg hd, List.dropWhile_cons_of_neg hd]
    · simp only [runsSpec, if_neg hc]

/-- The truncated, case-folded token produced from one maximal run. -/
def tokenOfRun (r : List Char) : Word := (r.map toLowerByte).take (MAX_WORD_LEN - 1)

theorem take_append_take (n : Nat) : ∀ (a b : List Char),
    (a.take n ++ b).take n = (a ++ b).take n := by
  intro a
  induction a generalizing n with
  | nil => intro b; simp
  | cons x xs ih =>
    intro b
    cases n with
    | zero => simp
    | succ n => simp [List.take_succ_cons, List.cons_append, ih]

theorem tokenizeAux_spec : ∀ (n : Nat) (s : List Char), s.length ≤ n →
    (tokenizeAux s [] = (runsSpec s).map tokenOfRun) ∧
    (∀ cur : List Char, cur ≠ [] → cur.length ≤ MAX_WORD_LEN - 1 →
      tokenizeAux s cur =
        ((cur ++ (s.takeWhile isAlnumByte).map toLowerByte).take (MAX_WORD_LEN - 1)) ::
          (runsSpec (s.dropWhile isAlnumByte)).map tokenOfRun) := by
  intro n
  induction n with
  | zero =>
    intro s hs
    have hnil : s = [] := List.length_eq_zero.mp (Nat.le_zero.mp hs)
    subst hnil
    refine ⟨by simp [tokenizeAux, runsSpec], ?_⟩
    intro cur hne hlen
    have h0 : ¬ cur.length = 0 := fun h => hne (List.length_eq_zero.mp h)
    simp [tokenizeAux, runsSpec, h0, List.take_of_length_le hlen]
  | succ n ih =>
    intro s hs
    cases s with
    | nil =>
      refine ⟨by simp [tokenizeAux, runsSpec], ?_⟩
      intro cur hne hlen
      have h0 : ¬ cur.length = 0 := fun h => hne (List.length_eq_zero.mp h)
      simp [tokenizeAux, runsSpec, h0, List.take_of_length_le hlen]
    | cons c rest =>
      have hrest : rest.length ≤ n := by
        have := hs
        simp only [List.length_cons] at this
        omega
      constructor
      · by_cases hc : isAlnumByte c
        · have hstep : tokenizeAux (c :: rest) [] = tokenizeAux rest [toLowerByte c] := by
            simp [tokenizeAux, hc, MAX_WORD_LEN]
          rw [hstep,
            (ih rest hrest).2 [toLowerByte c] (by simp) (by simp [MAX_WORD_LEN])]
          rw [runsSpec_cons, if_pos hc]
          simp [tokenOfRun, List.map_cons]
        · have hstep : tokenizeAux (c :: rest) [] = tokenizeAux rest [] := by
            simp [tokenizeAux, hc]
          rw [hstep, (ih rest hrest).1, runsSpec_cons, if_neg hc]
      · intro cur hne hlen
        by_cases hc : isAlnumByte c
        · by_cases hsmall : cur.length < MAX_WORD_LEN - 1
          · have hstep : tokenizeAux (c :: rest) cur =
                tokenizeAux rest (cur ++ [toLowerByte c]) := by
              simp [tokenizeAux, hc, hsmall]
            rw [hstep,
              (ih rest hrest).2 (cur ++ [toLowerByte c]) (by simp)
                (by simp only [List.length_append, List.length_cons, List.length_nil]; omega)]
            rw [List.takeWhile_cons_of_pos hc, List.dropWhile_cons_of_pos hc]
            simp [List.append_assoc]
          · have hfull : cur.length = MAX_WORD_LEN - 1 := by omega
            have hstep : tokenizeAux (c :: rest) cur = tokenizeAux rest cur := by
              simp [tokenizeAux, hc, hsmall]
            rw [hstep, (ih rest hrest).2 cur hne hlen]
            rw [List.takeWhile_cons_of_pos hc, List.dropWhile_cons_of_pos hc]
            rw [List.take_append_eq_append_take, List.take_append_eq_append_take,
              List.take_of_length_le hlen, hfull]
            simp
        · have h0 : ¬ cur.length = 0 := fun h => hne (List.length_eq_zero.mp h)
          have hstep : tokenizeAux (c :: rest) cur = cur :: tokenizeAux rest [] := by
            simp [tokenizeAux, hc, h0]
          rw [hstep, (ih rest hrest).1]
          rw [List.takeWhile_cons_of_neg (by simp [hc]), List.dropWhile_cons_of_neg (by simp [hc])]
          rw [runsSpec_cons, if_neg hc]
          simp [List.take_of_length_le hlen]

/-- Every token the scanner emits is a maximal alphanumeric run, case-folded
and truncated to the first `MAX_WORD_LEN - 1` characters. -/
theorem tokenize_eq_runs (s : List Char) :
    tokenize s = (runsSpec s).map tokenOfRun :=
  (tokenizeAux_spec s.length s (Nat.le_refl _)).1

theorem takeWhile_of_all (p : Char → Bool) :
    ∀ r : List Char, (∀ c ∈ r, p c = true) →
      r.takeWhile p = r ∧ r.dropWhile p = [] := by
  intro r
  induction r with
  | nil => intro _; exact ⟨rfl, rfl⟩
  | cons a r ih =>
    intro hall
    have ha : p a = true := hall a (List.mem_cons_self _ _)
    have hrec := ih (fun c hc => hall c (List.mem_cons_of_mem _ hc))
    rw [List.takeWhile_cons_of_pos ha, List.dropWhile_cons_of_pos ha, hrec.1, hrec.2]
    exact ⟨rfl, rfl⟩

theorem takeWhile_all_append (p : Char → Bool) :
    ∀ (r t : List Char) (sep : Char), (∀ c ∈ r, p c = true) → p sep = false →
      (r ++ sep :: t).takeWhile p = r ∧ (r ++ sep :: t).dropWhile p = sep :: t := by
  intro r
  induction r with
  | nil =>
    intro t sep _ hsep
    have hneg : ¬ p sep = true := by rw [hsep]; exact Bool.false_ne_true
    rw [List.nil_append, List.takeWhile_cons_of_neg hneg,
      List.dropWhile_cons_of_neg hneg]
    exact ⟨rfl, rfl⟩
  | cons a r ih =>
    intro t sep hall hsep
    have ha : p a = true := hall a (List.mem_cons_self _ _)
    have hrec := ih t sep (fun c hc => hall c (List.mem_cons_of_mem _ hc)) hsep
    rw [List.cons_append, List.takeWhile_cons_of_pos ha,
      List.dropWhile_cons_of_pos ha, hrec.1, hrec.2]
    exact ⟨rfl, rfl⟩

theorem runsSpec_all_alnum (w : List Char) (hall : ∀ c ∈ w, isAlnumByte c = true)
    (hne : w ≠ []) : runsSpec w = [w] := by
  cases w with
  | nil => exact absurd rfl hne
  | cons b r =>
    have hb : isAlnumByte b = true := hall b (List.mem_cons_self _ _)
    have hr := takeWhile_of_all isAlnumByte r
      (fun c hc => hall c (List.mem_cons_of_mem _ hc))
    rw [runsSpec_cons, if_pos hb, hr.1, hr.2]
    simp [runsSpec]

theorem runsSpec_two_runs (w1 w2 : List Char) (sep : Char)
    (h1 : ∀ c ∈ w1, isAlnumByte c = true) (h2 : ∀ c ∈ w2, isAlnumByte c = true)
    (hsep : isAlnumByte sep = false) (hn1 : w1 ≠ []) (hn2 : w2 ≠ []) :
    runsSpec (w1 ++ sep :: w2) = [w1, w2] := by
  cases w1 with
  | nil => exact absurd rfl hn1
  | cons a r =>
    have ha := h1 a (List.mem_cons_self _ _)
    have hr : ∀ c ∈ r, isAlnumByte c = true :=
      fun c hc => h1 c (List.mem_cons_of_mem _ hc)
    have hsplit := takeWhile_all_append isAlnumByte r w2 sep hr hsep
    have hnegsep : ¬ isAlnumByte sep = true := by rw [hsep]; exact Bool.false_ne_true
    rw [List.cons_append, runsSpec_cons, if_pos ha, hsplit.1, hsplit.2]
    rw [runsSpec_cons, if_neg hnegsep, runsSpec_all_alnum w2 h2 hn2]

set_option maxRecDepth 10000 in
/-- C6 counterexample: a maximal run of `MAX_WORD_LEN` alphanumeric bytes is
not emitted as that (case-folded) run — the scanner truncates it — so the
tokens are not exactly the case-folded maximal runs. -/
theorem c6_counterexample_long_run :
    tokenize (List.replicate MAX_WORD_LEN 'a') ≠
      (runsSpec (List.replicate MAX_WORD_LEN 'a')).map (fun r => r.map toLowerByte) := by
  decide

/-- C6 (amended). Tokenization emits exactly the maximal runs of alphanumeric
bytes, case-folded to lower case and truncated to the first
`MAX_WORD_LEN - 1` characters: a non-alphanumeric byte ends the current
token, consecutive separators never produce an empty token, a pending token
at end of stream is still emitted; the file content
`"The quick brown fox. The Fox runs."` yields the histogram
`{the:2, quick:1, brown:1, fox:2, runs:1}`. -/
theorem c6_tokenizer_maximal_runs :
    (∀ s : List Char, tokenize s =
        (runsSpec s).map (fun r => (r.map toLowerByte).take (MAX_WORD_LEN - 1))) ∧
    count_words_in_file (some ("The quick brown fox. The Fox runs.".toList)) =
      some [⟨"the".toList, 2⟩, ⟨"quick".toList, 1⟩, ⟨"brown".toList, 1⟩,
            ⟨"fox".toList, 2⟩, ⟨"runs".toList, 1⟩] :=
  ⟨fun s => tokenize_eq_runs s, by decide⟩

/-- C7. Tokens longer than the 99-usable-character bound are deterministically
truncated to their first 99 characters, never rejected: every emitted token is
within the bound, every maximal run still contributes exactly one token (its
truncation), and two distinct long words whose truncations agree are counted
as a single histogram entry with the summed frequency. Single-process and
multi-worker mode run the same `count_words_in_file`/`scanWords` code, so the
truncation is identical in both. -/
theorem c7_long_tokens_truncated (w1 w2 : Word) (sep : Char)
    (h1 : ∀ c ∈ w1, isAlnumByte c = true) (h2 : ∀ c ∈ w2, isAlnumByte c = true)
    (hsep : isAlnumByte sep = false)
    (hl1 : MAX_WORD_LEN - 1 < w1.length) (hl2 : MAX_WORD_LEN - 1 < w2.length)
    (hpre : (w1.map toLowerByte).take (MAX_WORD_LEN - 1) =
            (w2.map toLowerByte).take (MAX_WORD_LEN - 1))
    (hne : w1 ≠ w2) :
    (∀ (s : List Char) (t : Word), t ∈ tokenize s → t.length ≤ MAX_WORD_LEN - 1) ∧
    (∀ s : List Char, (tokenize s).length = (runsSpec s).length) ∧
    (∀ (s : List Char) (r : List Char), r ∈ runsSpec s →
        (r.map toLowerByte).take (MAX_WORD_LEN - 1) ∈ tokenize s) ∧
    scanWords (w1 ++ sep :: w2) [] [] =
      [⟨(w1.map toLowerByte).take (MAX_WORD_LEN - 1), 2⟩] := by
  refine ⟨?_, ?_, ?_, ?_⟩
  · intro s t ht
    rw [tokenize_eq_runs] at ht
    rcases List.mem_map.mp ht with ⟨r, _, hr⟩
    subst hr
    simp only [tokenOfRun, List.length_take]
    omega
  · intro s
    rw [tokenize_eq_runs, List.length_map]
  · intro s r hr
    rw [tokenize_eq_runs]
    exact List.mem_map.mpr ⟨r, hr, rfl⟩
  · have hn1 : w1 ≠ [] := by
      intro hc; subst hc; simp at hl1
    have hn2 : w2 ≠ [] := by
      intro hc; subst hc; simp at hl2
    rw [scanWords_eq_foldl]
    have htok : tokenizeAux (w1 ++ sep :: w2) [] =
        [(w1.map toLowerByte).take (MAX_WORD_LEN - 1),
         (w2.map toLowerByte).take (MAX_WORD_LEN - 1)] := by
      have := tokenize_eq_runs (w1 ++ sep :: w2)
      rw [runsSpec_two_runs w1 w2 sep h1 h2 hsep hn1 hn2] at this
      simpa [tokenize, tokenOfRun] using this
    rw [htok, ← hpre]
    simp [add_word_to_histogram]

set_option maxRecDepth 10000 in
/-- Witness for C7: two distinct 100-character words sharing their first 99
characters merge into one entry of frequency 2. -/
theorem c7_long_tokens_truncated_witness :
    ((∀ c ∈ List.replicate MAX_WORD_LEN 'a', isAlnumByte c = true) ∧
     (∀ c ∈ List.replicate (MAX_WORD_LEN - 1) 'a' ++ ['b'], isAlnumByte c = true) ∧
     isAlnumByte ' ' = false ∧
     MAX_WORD_LEN - 1 < (List.replicate MAX_WORD_LEN 'a').length ∧
     MAX_WORD_LEN - 1 < (List.replicate (MAX_WORD_LEN - 1) 'a' ++ ['b']).length ∧
     ((List.replicate MAX_WORD_LEN 'a').map toLowerByte).take (MAX_WORD_LEN - 1) =
       ((List.replicate (MAX_WORD_LEN - 1) 'a' ++ ['b']).map toLowerByte).take
         (MAX_WORD_LEN - 1) ∧
     List.replicate MAX_WORD_LEN 'a' ≠ List.replicate (MAX_WORD_LEN - 1) 'a' ++ ['b']) ∧
    ((∀ (s : List Char) (t : Word), t ∈ tokenize s → t.length ≤ MAX_WORD_LEN - 1) ∧
     (∀ s : List Char, (tokenize s).length = (runsSpec s).length) ∧
     (∀ (s : List Char) (r : List Char), r ∈ runsSpec s →
         (r.map toLowerByte).take (MAX_WORD_LEN - 1) ∈ tokenize s) ∧
     scanWords (List.replicate MAX_WORD_LEN 'a' ++ ' ' ::
         (List.replicate (MAX_WORD_LEN - 1) 'a' ++ ['b'])) [] [] =
       [⟨((List.replicate MAX_WORD_LEN 'a').map toLowerByte).take (MAX_WORD_LEN - 1), 2⟩]) :=
  ⟨⟨by decide, by decide, by decide, by decide, by decide, by decide, by decide⟩,
   c7_long_tokens_truncated _ _ _ (by decide) (by decide) (by decide) (by decide)
     (by decide) (by decide) (by decide)⟩

/-! ## Single-process mode and file handling -/

/-- Per-file step shared by the coordinator's single-process loop (main.c
lines 220–229) and the worker loop (lines 317–322): merge the file's
histogram into the running histogram when the file could be read, leave the
histogram unchanged when `count_words_in_file` reports the file unavailable. -/
def processFile (g : Histogram) (contents : Option (List Char)) : Histogram :=
  match count_words_in_file contents with
  | some h => merge_histograms g h
  | none => g

/-- A file system: each path resolves to readable content, or to `none` for a
nonexistent or unreadable file. -/
abbrev FileSys := FPath → Option (List Char)

/-- Single-process mode (`size == 1`): process every listed file in task
order, merging into the (initially empty) global histogram. -/
def runSingle (fs : FileSys) (paths : List FPath) : Histogram :=
  paths.foldl (fun g p => processFile g (fs p)) []

theorem foldl_processFile_filter (fs : FileSys) :
    ∀ (paths : List FPath) (g : Histogram),
      paths.foldl (fun g p => processFile g (fs p)) g =
        (paths.filter (fun p => (fs p).isSome)).foldl
          (fun g p => processFile g (fs p)) g := by
  intro paths
  induction paths with
  | nil => intro g; rfl
  | cons p rest ih =>
    intro g
    by_cases hp : (fs p).isSome
    · simp only [List.filter_cons, hp, if_pos, List.foldl_cons, ih]
    · have hnone : fs p = none := Option.not_isSome_iff_eq_none.mp (by simpa using hp)
      simp only [List.filter_cons, List.foldl_cons, hnone]
      simp only [Option.isSome_none, Bool.false_eq_true, if_neg, ih]
      rfl

/-- C8. Opening a nonexistent or unreadable input file yields the
FileUnavailable outcome `none` — a value, not an abort; the caller merges
nothing for that file and continues, so the run's final counts are exactly
those of the readable files. -/
theorem c8_unavailable_file_contributes_nothing :
    (∀ contents : Option (List Char),
        count_words_in_file contents = none ↔ contents = none) ∧
    (∀ (g : Histogram) (contents : Option (List Char)),
        count_words_in_file contents = none → processFile g contents = g) ∧
    (∀ (fs : FileSys) (paths : List FPath),
        runSingle fs paths = runSingle fs (paths.filter (fun p => (fs p).isSome))) := by
  refine ⟨?_, ?_, ?_⟩
  · intro contents
    cases contents <;> simp [count_words_in_file]
  · intro g contents hnone
    simp [processFile, hnone]
  · intro fs paths
    exact foldl_processFile_filter fs paths []

/-- Witness for C8 at a nonexistent file. -/
theorem c8_unavailable_file_contributes_nothing_witness :
    count_words_in_file none = none ∧
    processFile [⟨['a'], 1⟩] none = [⟨['a'], 1⟩] :=
  ⟨rfl, c8_unavailable_file_contributes_nothing.2.1 [⟨['a'], 1⟩] none rfl⟩

/-! ## The file-list loader (main.c lines 195–210) -/

/-- Strip a line as the loader does: truncate at the first newline
(`strcspn(.., "\n")` + NUL write), then at the first carriage return. -/
def stripLine (l : List Char) : List Char :=
  (l.takeWhile (fun c => !(c == '\x0a'))).takeWhile (fun c => !(c == '\x0d'))

/-- The paths the loader keeps: one `fgets` call per input line; the loop body
runs only while `total_files < MAX_FILES`, and only nonempty stripped lines
increment `total_files` and are kept. -/
def loadFileList : List (List Char) → Nat → List FPath
  | [], _ => []
  | line :: rest, total =>
    if total < MAX_FILES then
      if (stripLine line).length ≠ 0 then stripLine line :: loadFileList rest (total + 1)
      else loadFileList rest total
    else []

/-- The sequence of `file_list` row indices written by `fgets` during loading.
`fgets(file_list[total_files], ...)` is the first operand of the loop
condition `fgets(...) && total_files < MAX_FILES`, so it executes — writing
row `total_files` — before the bound is checked; end of input makes `fgets`
return NULL without writing. -/
def loaderWrites : List (List Char) → Nat → List Nat
  | [], _ => []
  | line :: rest, total =>
    total ::
      (if total < MAX_FILES then
        if (stripLine line).length ≠ 0 then loaderWrites rest (total + 1)
        else loaderWrites rest total
      else [])

theorem loadFileList_length : ∀ (lines : List (List Char)) (total : Nat),
    (loadFileList lines total).length ≤ MAX_FILES - total := by
  intro lines
  induction lines with
  | nil => intro total; simp [loadFileList]
  | cons line rest ih =>
    intro total
    by_cases ht : total < MAX_FILES
    · by_cases hl : (stripLine line).length ≠ 0
      · have := ih (total + 1)
        simp only [loadFileList, if_pos ht, if_pos hl, List.length_cons]
        omega
      · have := ih total
        simp only [loadFileList, if_pos ht, if_neg hl]
        omega
    · simp [loadFileList, ht]

set_option maxRecDepth 4000 in
/-- C10. The loader stores at most `MAX_FILES` paths — but the claim's
in-bounds part fails: on an input of `MAX_FILES + 1` nonempty lines the
loader's `fgets` performs a write at row index `MAX_FILES` (out of bounds for
`file_list[MAX_FILES][...]`), because the loop condition evaluates `fgets`
before checking `total_files < MAX_FILES`. -/
theorem c10_loader_write_at_max_files :
    (∀ lines : List (List Char), (loadFileList lines 0).length ≤ MAX_FILES) ∧
    MAX_FILES ∈ loaderWrites (List.replicate (MAX_FILES + 1) ['a']) 0 :=
  ⟨fun lines => by simpa using loadFileList_length lines 0, by decide⟩

/-! ## The coordinator/worker protocol (multi-worker mode, main.c 230–282 and
299–328) -/

/-- Messages from the coordinator to a worker, distinguished by MPI tag:
a task (`TAG_TASK`, payload a file path) or the termination signal
(`TAG_END_OF_TASKS_SEND_HISTOGRAM`). -/
inductive CMsg where
  | task (p : FPath)
  | term
  deriving DecidableEq, Repr

/-- Messages from a worker to the coordinator: the ready-signal
(`TAG_PROCESSED_FILE_ACK`) or the worker's final histogram
(`TAG_HISTOGRAM_DATA_COUNT` followed by the word/frequency pairs, sent
back-to-back and drained back-to-back by the coordinator, modelled as one
message). -/
inductive WMsg where
  | ack
  | histo (h : Histogram)
  deriving DecidableEq, Repr

/-- A worker's control state: blocked in `MPI_Recv` at the top of its loop
holding its local histogram, or exited (after `break`). -/
inductive WState where
  | idle (loc : Histogram)
  | done
  deriving DecidableEq, Repr

/-- One worker as seen by the system: its state, its incoming queue from the
coordinator and its outgoing queue to the coordinator. MPI point-to-point
messages between one sender/receiver pair are non-overtaking, so each
direction is one FIFO queue. -/
structure WSlot where
  st : WState
  inbox : List CMsg
  outbox : List WMsg
  deriving DecidableEq, Repr

/-- The coordinator's control state inside multi-worker mode: blocked
receiving a ready-signal from any worker (`waitAck`), blocked draining the
histogram of worker `i` right after sending it the termination signal
(`waitHisto`), or out of the reactive loop with the final global histogram
(`doneC`). `next` is the dispatch cursor `next_file_idx` and `fin` is
`workers_finished_and_sent_histograms`. -/
inductive CState where
  | waitAck (next fin : Nat) (g : Histogram)
  | waitHisto (i : Nat) (next fin : Nat) (g : Histogram)
  | doneC (g : Histogram)
  deriving DecidableEq, Repr

/-- The whole system: the coordinator plus the worker slots (slot `i` is the
worker of MPI rank `i + 1`). -/
structure Sys where
  coord : CState
  ws : List WSlot
  deriving DecidableEq, Repr

/-- Worker slot `i` right after priming (main.c lines 240–247): the worker is
sent task `i` when it exists, otherwise an immediate termination signal. -/
def initSlot (T : List FPath) (i : Nat) : WSlot :=
  if h : i < T.length then ⟨WState.idle [], [CMsg.task (T.get ⟨i, h⟩)], []⟩
  else ⟨WState.idle [], [CMsg.term], []⟩

/-- The system as the coordinator enters the reactive loop after priming: the
dispatch cursor has advanced by one per task sent, no worker has been
drained, the global histogram is empty, every worker is at the top of its
receive loop. -/
def initSys (T : List FPath) (W : Nat) : Sys :=
  ⟨CState.waitAck (min W T.length) 0 [], (List.range W).map (initSlot T)⟩

/-- One interleaving step of the system. `wTask`/`wTerm` are worker steps
(lines 304–326): consume the head message; on a task, tokenize the file and
merge into the local histogram, then send the ready-signal; on termination,
send the local histogram and exit. `cAckTask`/`cAckTerm` are the
coordinator's reaction to a ready-signal from any worker whose signal has
arrived (lines 249–258): dispatch the next task if any remain, otherwise send
termination and turn to drain that same worker. `cHisto` (lines 260–281) is
the blocking drain of worker `i`'s histogram: merge it and count the worker
finished; the loop exits when all `W` workers are counted. -/
inductive Step (fs : FileSys) (T : List FPath) (W : Nat) : Sys → Sys → Prop where
  | wTask (c : CState) (ws : List WSlot) (i : Nat) (loc : Histogram) (p : FPath)
      (inb : List CMsg) (outb : List WMsg)
      (hi : ws[i]? = some ⟨WState.idle loc, CMsg.task p :: inb, outb⟩) :
      Step fs T W ⟨c, ws⟩
        ⟨c, ws.set i ⟨WState.idle (processFile loc (fs p)), inb, outb ++ [WMsg.ack]⟩⟩
  | wTerm (c : CState) (ws : List WSlot) (i : Nat) (loc : Histogram)
      (inb : List CMsg) (outb : List WMsg)
      (hi : ws[i]? = some ⟨WState.idle loc, CMsg.term :: inb, outb⟩) :
      Step fs T W ⟨c, ws⟩
        ⟨c, ws.set i ⟨WState.done, inb, outb ++ [WMsg.histo loc]⟩⟩
  | cAckTask (ws : List WSlot) (i : Nat) (st : WState) (inb : List CMsg)
      (outb : List WMsg) (next fin : Nat) (g : Histogram)
      (hi : ws[i]? = some ⟨st, inb, WMsg.ack :: outb⟩) (hn : next < T.length) :
      Step fs T W ⟨CState.waitAck next fin g, ws⟩
        ⟨CState.waitAck (next + 1) fin g,
         ws.set i ⟨st, inb ++ [CMsg.task (T.get ⟨next, hn⟩)], outb⟩⟩
  | cAckTerm (ws : List WSlot) (i : Nat) (st : WState) (inb : List CMsg)
      (outb : List WMsg) (next fin : Nat) (g : Histogram)
      (hi : ws[i]? = some ⟨st, inb, WMsg.ack :: outb⟩) (hn : ¬ next < T.length) :
      Step fs T W ⟨CState.waitAck next fin g, ws⟩
        ⟨CState.waitHisto i next fin g, ws.set i ⟨st, inb ++ [CMsg.term], outb⟩⟩
  | cHisto (ws : List WSlot) (i : Nat) (st : WState) (inb : List CMsg)
      (outb : List WMsg) (next fin : Nat) (g h : Histogram)
      (hi : ws[i]? = some ⟨st, inb, WMsg.histo h :: outb⟩) :
      Step fs T W ⟨CState.waitHisto i next fin g, ws⟩
        ⟨(if fin + 1 < W then CState.waitAck next (fin + 1) (merge_histograms g h)
          else CState.doneC (merge_histograms g h)),
         ws.set i ⟨st, inb, outb⟩⟩

/-- Executions: the reflexive-transitive closure of `Step`. -/
def Steps (fs : FileSys) (T : List FPath) (W : Nat) : Sys → Sys → Prop :=
  Relation.ReflTransGen (Step fs T W)

/-! ### Worker phases and the protocol invariant -/

/-- Phase: the worker holds an undelivered task (after priming or dispatch). -/
def primedP (s : WSlot) : Prop := ∃ loc p, s = ⟨WState.idle loc, [CMsg.task p], []⟩

/-- Phase: the worker has processed its task and its ready-signal is in
flight or not yet consumed. -/
def ackedP (s : WSlot) : Prop := ∃ loc, s = ⟨WState.idle loc, [], [WMsg.ack]⟩

/-- Phase: the coordinator has sent the termination signal, the worker has
not yet consumed it. -/
def termSentP (s : WSlot) : Prop := ∃ loc, s = ⟨WState.idle loc, [CMsg.term], []⟩

/-- Phase: the worker has terminated and its final histogram is in flight. -/
def histoSentP (s : WSlot) : Prop := ∃ h, s = ⟨WState.done, [], [WMsg.histo h]⟩

/-- Phase: the worker has terminated and its histogram has been drained. -/
def drainedP (s : WSlot) : Prop := s = ⟨WState.done, [], []⟩

/-- Phases a worker can be in while the coordinator is in its ready-signal
receive, other than waiting for termination handling. -/
def activeP (s : WSlot) : Prop := primedP s ∨ ackedP s ∨ drainedP s

/-- Phases of a worker whose termination is in progress. -/
def waitP (s : WSlot) : Prop := termSentP s ∨ histoSentP s

/-- Decidable test for the drained phase. -/
def isDrained (s : WSlot) : Bool := decide (s = ⟨WState.done, [], []⟩)

/-- Number of drained workers. -/
def drainCount (ws : List WSlot) : Nat := ws.countP isDrained

/-- The single-file histogram a path contributes ([] when unreadable). -/
def countFileH (fs : FileSys) (p : FPath) : Histogram :=
  match count_words_in_file (fs p) with
  | some h => h
  | none => []

/-- Frequency of `w` held in a worker state. -/
def stMapF (w : Word) : WState → Nat
  | WState.idle loc => freqOf loc w
  | WState.done => 0

/-- Frequency of `w` carried by a coordinator-to-worker message. -/
def cMsgF (fs : FileSys) (w : Word) : CMsg → Nat
  | CMsg.task p => freqOf (countFileH fs p) w
  | CMsg.term => 0

/-- Frequency of `w` carried by a worker-to-coordinator message. -/
def wMsgF (w : Word) : WMsg → Nat
  | WMsg.ack => 0
  | WMsg.histo h => freqOf h w

/-- Frequency of `w` accounted to one worker slot: its local histogram plus
everything in flight to and from it. -/
def slotMapF (fs : FileSys) (w : Word) (s : WSlot) : Nat :=
  stMapF w s.st + (s.inbox.map (cMsgF fs w)).sum + (s.outbox.map (wMsgF w)).sum

/-- The global histogram held by the coordinator state. -/
def globOf : CState → Histogram
  | CState.waitAck _ _ g => g
  | CState.waitHisto _ _ _ g => g
  | CState.doneC g => g

/-- The dispatch cursor held by the coordinator state (all tasks are
dispatched once the loop has been exited). -/
def nextOf (Tlen : Nat) : CState → Nat
  | CState.waitAck next _ _ => next
  | CState.waitHisto _ next _ _ => next
  | CState.doneC _ => Tlen

/-- Frequency of `w` accounted to the whole system. -/
def sysMapF (fs : FileSys) (w : Word) (s : Sys) : Nat :=
  freqOf (globOf s.coord) w + (s.ws.map (slotMapF fs w)).sum

/-- Frequency of `w` contributed by the first `n` listed files. -/
def taskSum (fs : FileSys) (T : List FPath) (n : Nat) (w : Word) : Nat :=
  ((T.take n).map (fun p => freqOf (countFileH fs p) w)).sum

/-- Histogram well-formedness of everything a slot holds. -/
def WFslot (s : WSlot) : Prop :=
  (∀ loc, s.st = WState.idle loc → WF loc) ∧
  (∀ h, WMsg.histo h ∈ s.outbox → WF h)

/-- Histogram well-formedness of everything the system holds. -/
def WFsys (s : Sys) : Prop :=
  WF (globOf s.coord) ∧ ∀ (j : Nat) (slot : WSlot), s.ws[j]? = some slot → WFslot slot

/-- Slot invariant while no drain of this worker is in progress: the worker is
active, or it was terminated straight from priming — which can only happen to
workers whose index has no task (`T.length ≤ j`) — and is stuck in a waiting
phase. -/
def slotOKA (Tlen : Nat) (j : Nat) (s : WSlot) : Prop :=
  activeP s ∨ (waitP s ∧ Tlen ≤ j)

/-- The coordinator-state-dependent part of the protocol invariant. -/
def CoordInv (T : List FPath) (W : Nat) : CState → List WSlot → Prop
  | CState.waitAck next fin _, ws =>
      next ≤ T.length ∧ fin < W ∧ drainCount ws = fin ∧
      ∀ (j : Nat) (slot : WSlot), ws[j]? = some slot → slotOKA T.length j slot
  | CState.waitHisto i next fin _, ws =>
      next = T.length ∧ fin < W ∧ i < W ∧ drainCount ws = fin ∧
      (∀ slot : WSlot, ws[i]? = some slot → waitP slot) ∧
      ∀ (j : Nat) (slot : WSlot), ws[j]? = some slot → j ≠ i → slotOKA T.length j slot
  | CState.doneC _, ws => drainCount ws = W

/-- The protocol invariant. -/
structure SysInv (fs : FileSys) (T : List FPath) (W : Nat) (s : Sys) : Prop where
  hlen : s.ws.length = W
  hwf : WFsys s
  hmap : ∀ w, sysMapF fs w s = taskSum fs T (nextOf T.length s.coord) w
  hco : CoordInv T W s.coord s.ws

theorem lt_length_of_getElem?_some {α : Type} {l : List α} {i : Nat} {a : α}
    (h : l[i]? = some a) : i < l.length := by
  by_contra hn
  rw [List.getElem?_eq_none (Nat.le_of_not_lt hn)] at h
  exact Option.noConfusion h

theorem map_sum_set {α : Type} (f : α → Nat) :
    ∀ (l : List α) (i : Nat) (a b : α), l[i]? = some b →
      ((l.set i a).map f).sum + f b = (l.map f).sum + f a := by
  intro l
  induction l with
  | nil => intro i a b h; simp at h
  | cons x xs ih =>
    intro i a b h
    cases i with
    | zero =>
      rw [List.getElem?_cons_zero] at h
      have hxb : x = b := by injection h
      subst hxb
      simp [List.set_cons_zero]
      omega
    | succ i =>
      rw [List.getElem?_cons_succ] at h
      have := ih i a b h
      simp only [List.set_cons_succ, List.map_cons, List.sum_cons]
      omega

theorem countP_set (p : WSlot → Bool) :
    ∀ (l : List WSlot) (i : Nat) (a b : WSlot), l[i]? = some b →
      (l.set i a).countP p + (if p b then 1 else 0) =
        l.countP p + (if p a then 1 else 0) := by
  intro l
  induction l with
  | nil => intro i a b h; simp at h
  | cons x xs ih =>
    intro i a b h
    cases i with
    | zero =>
      rw [List.getElem?_cons_zero] at h
      have hxb : x = b := by injection h
      subst hxb
      simp only [List.set_cons_zero, List.countP_cons]
      by_cases hx2 : p x <;> by_cases ha2 : p a <;> simp [hx2, ha2] <;> omega
    | succ i =>
      rw [List.getElem?_cons_succ] at h
      have := ih i a b h
      simp only [List.set_cons_succ, List.countP_cons]
      by_cases hx : p x <;> simp [hx] <;> omega

theorem forall_slots_set {Q : Nat → WSlot → Prop} {ws : List WSlot} {i : Nat}
    {a b : WSlot} (hb : ws[i]? = some b)
    (hall : ∀ j slot, ws[j]? = some slot → Q j slot) (ha : Q i a) :
    ∀ j slot, (ws.set i a)[j]? = some slot → Q j slot := by
  intro j slot hj
  by_cases hij : i = j
  · subst hij
    rw [List.getElem?_set_self (lt_length_of_getElem?_some hb)] at hj
    have : a = slot := by injection hj
    subst this
    exact ha
  · rw [List.getElem?_set_ne hij] at hj
    exact hall j slot hj

/-! ### Phase inversion -/

theorem slotOKA_task_head {Tlen j : Nat} {loc : Histogram} {p : FPath}
    {inb : List CMsg} {outb : List WMsg}
    (h : slotOKA Tlen j ⟨WState.idle loc, CMsg.task p :: inb, outb⟩) :
    inb = [] ∧ outb = [] := by
  simp only [slotOKA, activeP, primedP, ackedP, drainedP, waitP, termSentP,
    histoSentP, WSlot.mk.injEq] at h
  rcases h with (⟨loc2, p2, h1, h2, h3⟩ | ⟨loc2, h1, h2, h3⟩ | ⟨h1, h2, h3⟩) |
    ⟨⟨loc2, h1, h2, h3⟩ | ⟨h0, h1, h2, h3⟩, _⟩ <;> simp_all

theorem slotOKA_term_head {Tlen j : Nat} {loc : Histogram}
    {inb : List CMsg} {outb : List WMsg}
    (h : slotOKA Tlen j ⟨WState.idle loc, CMsg.term :: inb, outb⟩) :
    inb = [] ∧ outb = [] ∧ Tlen ≤ j := by
  simp only [slotOKA, activeP, primedP, ackedP, drainedP, waitP, termSentP,
    histoSentP, WSlot.mk.injEq] at h
  rcases h with (⟨loc2, p2, h1, h2, h3⟩ | ⟨loc2, h1, h2, h3⟩ | ⟨h1, h2, h3⟩) |
    ⟨⟨loc2, h1, h2, h3⟩ | ⟨h0, h1, h2, h3⟩, hj⟩ <;> simp_all

theorem slotOKA_ack_head {Tlen j : Nat} {st : WState}
    {inb : List CMsg} {outb : List WMsg}
    (h : slotOKA Tlen j ⟨st, inb, WMsg.ack :: outb⟩) :
    ∃ loc, st = WState.idle loc ∧ inb = [] ∧ outb = [] := by
  simp only [slotOKA, activeP, primedP, ackedP, drainedP, waitP, termSentP,
    histoSentP, WSlot.mk.injEq] at h
  rcases h with (⟨loc2, p2, h1, h2, h3⟩ | ⟨loc2, h1, h2, h3⟩ | ⟨h1, h2, h3⟩) |
    ⟨⟨loc2, h1, h2, h3⟩ | ⟨h0, h1, h2, h3⟩, _⟩ <;> simp_all

theorem waitP_task_head {loc : Histogram} {p : FPath}
    {inb : List CMsg} {outb : List WMsg}
    (h : waitP ⟨WState.idle loc, CMsg.task p :: inb, outb⟩) : False := by
  simp only [waitP, termSentP, histoSentP, WSlot.mk.injEq] at h
  rcases h with ⟨loc2, h1, h2, h3⟩ | ⟨h0, h1, h2, h3⟩ <;> simp_all

theorem waitP_ack_head {st : WState} {inb : List CMsg} {outb : List WMsg}
    (h : waitP ⟨st, inb, WMsg.ack :: outb⟩) : False := by
  simp only [waitP, termSentP, histoSentP, WSlot.mk.injEq] at h
  rcases h with ⟨loc2, h1, h2, h3⟩ | ⟨h0, h1, h2, h3⟩ <;> simp_all

theorem waitP_term_head {loc : Histogram} {inb : List CMsg} {outb : List WMsg}
    (h : waitP ⟨WState.idle loc, CMsg.term :: inb, outb⟩) :
    inb = [] ∧ outb = [] := by
  simp only [waitP, termSentP, histoSentP, WSlot.mk.injEq] at h
  rcases h with ⟨loc2, h1, h2, h3⟩ | ⟨h0, h1, h2, h3⟩ <;> simp_all

theorem waitP_histo_head {st : WState} {h0 : Histogram}
    {inb : List CMsg} {outb : List WMsg}
    (h : waitP ⟨st, inb, WMsg.histo h0 :: outb⟩) :
    st = WState.done ∧ inb = [] ∧ outb = [] := by
  simp only [waitP, termSentP, histoSentP, WSlot.mk.injEq] at h
  rcases h with ⟨loc2, h1, h2, h3⟩ | ⟨h1, h2, h3⟩ <;> simp_all

theorem drained_of_drainCount_eq_length {ws : List WSlot}
    (h : drainCount ws = ws.length) :
    ∀ (j : Nat) (slot : WSlot), ws[j]? = some slot → slot = ⟨WState.done, [], []⟩ := by
  intro j slot hj
  have hmem : slot ∈ ws := List.getElem?_mem hj
  have := List.countP_eq_length.mp h slot hmem
  simpa [isDrained] using this

/-! ### Per-file histogram facts -/

theorem processFile_eq_merge (fs : FileSys) (loc : Histogram) (p : FPath) :
    processFile loc (fs p) = merge_histograms loc (countFileH fs p) := by
  unfold processFile countFileH
  cases count_words_in_file (fs p) with
  | none => rfl
  | some h => rfl

theorem WF_foldl_add_word : ∀ (ts : List Word) (h : Histogram), WF h →
    WF (ts.foldl add_word_to_histogram h) := by
  intro ts
  induction ts with
  | nil => intro h hh; exact hh
  | cons t ts ih =>
    intro h hh
    simp only [List.foldl_cons]
    exact ih _ (by rw [add_word_eq_add_freq]; exact WF_add_freq hh (Nat.le_refl 1))

theorem WF_countFileH (fs : FileSys) (p : FPath) : WF (countFileH fs p) := by
  unfold countFileH
  cases hc : fs p with
  | none => simp [count_words_in_file]; exact WF_nil
  | some s =>
    simp only [count_words_in_file]
    rw [scanWords_eq_foldl]
    exact WF_foldl_add_word _ [] WF_nil

theorem WF_processFile {fs : FileSys} {loc : Histogram} (p : FPath)
    (hl : WF loc) : WF (processFile loc (fs p)) := by
  rw [processFile_eq_merge]
  exact WF_merge hl (WF_countFileH fs p)

theorem freqOf_processFile (fs : FileSys) (loc : Histogram) (p : FPath) (w : Word) :
    freqOf (processFile loc (fs p)) w = freqOf loc w + freqOf (countFileH fs p) w := by
  rw [processFile_eq_merge, freqOf_merge, sumFreq_eq_freqOf (WF_countFileH fs p).1]

theorem taskSum_succ (fs : FileSys) (T : List FPath) (n : Nat) (hn : n < T.length)
    (w : Word) :
    taskSum fs T (n + 1) w = taskSum fs T n w + freqOf (countFileH fs (T.get ⟨n, hn⟩)) w := by
  unfold taskSum
  have h1 : T.take (n + 1) = T.take n ++ [T.get ⟨n, hn⟩] := by
    rw [← List.take_concat_get T n hn, List.concat_eq_append]
    rfl
  rw [h1, List.map_append, List.sum_append]
  simp

theorem isDrained_false_of_idle (loc : Histogram) (inb : List CMsg)
    (outb : List WMsg) : isDrained ⟨WState.idle loc, inb, outb⟩ = false := by
  simp only [isDrained, decide_eq_false_iff_not]
  intro h
  injection h with h1 h2 h3
  exact WState.noConfusion h1

theorem isDrained_false_of_outbox_cons (st : WState) (inb : List CMsg)
    (m : WMsg) (outb : List WMsg) : isDrained ⟨st, inb, m :: outb⟩ = false := by
  simp only [isDrained, decide_eq_false_iff_not]
  intro h
  injection h with h1 h2 h3
  exact List.noConfusion h3

theorem isDrained_true_drained : isDrained ⟨WState.done, [], []⟩ = true := rfl

theorem drainCount_set_eq {ws : List WSlot} {i : Nat} {a b : WSlot}
    (hb : ws[i]? = some b) (hbn : isDrained b = false) (han : isDrained a = false) :
    drainCount (ws.set i a) = drainCount ws := by
  have hcs := countP_set isDrained ws i a b hb
  simp only [drainCount]
  rw [hbn, han] at hcs
  simpa using hcs

theorem drainCount_set_succ {ws : List WSlot} {i : Nat} {a b : WSlot}
    (hb : ws[i]? = some b) (hbn : isDrained b = false) (han : isDrained a = true) :
    drainCount (ws.set i a) = drainCount ws + 1 := by
  have hcs := countP_set isDrained ws i a b hb
  simp only [drainCount]
  rw [hbn, han] at hcs
  simp at hcs
  omega

theorem sysInv_step {fs : FileSys} {T : List FPath} {W : Nat} {s s2 : Sys}
    (hinv : SysInv fs T W s) (hstep : Step fs T W s s2) : SysInv fs T W s2 := by
  obtain ⟨hlen, ⟨hwfg, hwfs⟩, hmap, hco⟩ := hinv
  cases hstep with
  | wTask c ws i loc p inb outb hi =>
    have hwfb := hwfs i _ hi
    have hwfloc : WF loc := hwfb.1 loc rfl
    refine ⟨by simpa using hlen, ⟨hwfg, ?_⟩, ?_, ?_⟩
    · refine forall_slots_set hi hwfs ⟨?_, ?_⟩
      · intro loc2 hl2
        have hpe : processFile loc (fs p) = loc2 := by injection hl2
        exact hpe ▸ WF_processFile p hwfloc
      · intro h2 hh2
        rcases List.mem_append.mp hh2 with hh2 | hh2
        · exact hwfb.2 h2 hh2
        · simp at hh2
    · intro w
      have heq := map_sum_set (slotMapF fs w) ws i
        ⟨WState.idle (processFile loc (fs p)), inb, outb ++ [WMsg.ack]⟩ _ hi
      have hm := hmap w
      simp only [sysMapF] at hm ⊢
      simp only [slotMapF, stMapF, cMsgF, wMsgF, List.map_cons, List.sum_cons,
        List.map_append, List.sum_append, List.map_nil, List.sum_nil,
        freqOf_processFile] at heq
      simp only [nextOf] at hm ⊢
      omega
    · cases c with
      | waitAck next fin g =>
        obtain ⟨hnle, hfw, hdc, hall⟩ := hco
        obtain ⟨hinb, houtb⟩ := slotOKA_task_head (hall i _ hi)
        subst hinb
        subst houtb
        refine ⟨hnle, hfw, ?_, ?_⟩
        · rw [drainCount_set_eq hi (isDrained_false_of_idle _ _ _)
            (isDrained_false_of_idle _ _ _)]
          exact hdc
        · exact forall_slots_set hi hall
            (Or.inl (Or.inr (Or.inl ⟨processFile loc (fs p), by simp⟩)))
      | waitHisto i2 next fin g =>
        obtain ⟨hnt, hfw, hiw, hdc, hslot, hall⟩ := hco
        have hii2 : i ≠ i2 := by
          intro he
          subst he
          exact waitP_task_head (hslot _ hi)
        obtain ⟨hinb, houtb⟩ := slotOKA_task_head (hall i _ hi hii2)
        subst hinb
        subst houtb
        refine ⟨hnt, hfw, hiw, ?_, ?_, ?_⟩
        · rw [drainCount_set_eq hi (isDrained_false_of_idle _ _ _)
            (isDrained_false_of_idle _ _ _)]
          exact hdc
        · intro slot hs
          rw [List.getElem?_set_ne hii2] at hs
          exact hslot slot hs
        · intro j slot hj hji2
          by_cases hij : i = j
          · subst hij
            rw [List.getElem?_set_self (lt_length_of_getElem?_some hi)] at hj
            have hsa : (⟨WState.idle (processFile loc (fs p)), [],
                [] ++ [WMsg.ack]⟩ : WSlot) = slot := by injection hj
            subst hsa
            exact Or.inl (Or.inr (Or.inl ⟨processFile loc (fs p), by simp⟩))
          · rw [List.getElem?_set_ne hij] at hj
            exact hall j slot hj hji2
      | doneC g =>
        exfalso
        have hdr := drained_of_drainCount_eq_length
          (by rw [hco]; exact hlen.symm) i _ hi
        simp at hdr
  | wTerm c ws i loc inb outb hi =>
    have hwfb := hwfs i _ hi
    have hwfloc : WF loc := hwfb.1 loc rfl
    refine ⟨by simpa using hlen, ⟨hwfg, ?_⟩, ?_, ?_⟩
    · refine forall_slots_set hi hwfs ⟨?_, ?_⟩
      · intro loc2 hl2
        exact WState.noConfusion hl2
      · intro h2 hh2
        rcases List.mem_append.mp hh2 with hh2 | hh2
        · exact hwfb.2 h2 hh2
        · have hh3 : h2 = loc := by simpa using hh2
          exact hh3 ▸ hwfloc
    · intro w
      have heq := map_sum_set (slotMapF fs w) ws i
        ⟨WState.done, inb, outb ++ [WMsg.histo loc]⟩ _ hi
      have hm := hmap w
      simp only [sysMapF] at hm ⊢
      simp only [slotMapF, stMapF, cMsgF, wMsgF, List.map_cons, List.sum_cons,
        List.map_append, List.sum_append, List.map_nil, List.sum_nil] at heq
      simp only [nextOf] at hm ⊢
      omega
    · cases c with
      | waitAck next fin g =>
        obtain ⟨hnle, hfw, hdc, hall⟩ := hco
        obtain ⟨hinb, houtb, hTj⟩ := slotOKA_term_head (hall i _ hi)
        subst hinb
        subst houtb
        simp only [List.nil_append]
        refine ⟨hnle, hfw, ?_, ?_⟩
        · rw [drainCount_set_eq hi (isDrained_false_of_idle _ _ _)
            (isDrained_false_of_outbox_cons _ _ _ _)]
          exact hdc
        · exact forall_slots_set hi hall (Or.inr ⟨Or.inr ⟨loc, by simp⟩, hTj⟩)
      | waitHisto i2 next fin g =>
        obtain ⟨hnt, hfw, hiw, hdc, hslot, hall⟩ := hco
        by_cases hii2 : i = i2
        · subst hii2
          obtain ⟨hinb, houtb⟩ := waitP_term_head (hslot _ hi)
          subst hinb
          subst houtb
          simp only [List.nil_append]
          refine ⟨hnt, hfw, hiw, ?_, ?_, ?_⟩
          · rw [drainCount_set_eq hi (isDrained_false_of_idle _ _ _)
              (isDrained_false_of_outbox_cons _ _ _ _)]
            exact hdc
          · intro slot hs
            rw [List.getElem?_set_self (lt_length_of_getElem?_some hi)] at hs
            have hsa : (⟨WState.done, [], [WMsg.histo loc]⟩ : WSlot) = slot := by
              injection hs
            subst hsa
            exact Or.inr ⟨loc, by simp⟩
          · intro j slot hj hji
            rw [List.getElem?_set_ne (fun he => hji he.symm)] at hj
            exact hall j slot hj hji
        · obtain ⟨hinb, houtb, hTj⟩ := slotOKA_term_head (hall i _ hi hii2)
          subst hinb
          subst houtb
          simp only [List.nil_append]
          refine ⟨hnt, hfw, hiw, ?_, ?_, ?_⟩
          · rw [drainCount_set_eq hi (isDrained_false_of_idle _ _ _)
              (isDrained_false_of_outbox_cons _ _ _ _)]
            exact hdc
          · intro slot hs
            rw [List.getElem?_set_ne hii2] at hs
            exact hslot slot hs
          · intro j slot hj hji2
            by_cases hij : i = j
            · subst hij
              rw [List.getElem?_set_self (lt_length_of_getElem?_some hi)] at hj
              have hsa : (⟨WState.done, [], [WMsg.histo loc]⟩ : WSlot) = slot := by
                injection hj
              subst hsa
              exact Or.inr ⟨Or.inr ⟨loc, by simp⟩, hTj⟩
            · rw [List.getElem?_set_ne hij] at hj
              exact hall j slot hj hji2
      | doneC g =>
        exfalso
        have hdr := drained_of_drainCount_eq_length
          (by rw [hco]; exact hlen.symm) i _ hi
        simp at hdr
  | cAckTask ws i st inb outb next fin g hi hn =>
    obtain ⟨hnle, hfw, hdc, hall⟩ := hco
    obtain ⟨loc2, hst, hinb, houtb⟩ := slotOKA_ack_head (hall i _ hi)
    subst hst
    subst hinb
    subst houtb
    have hwfb := hwfs i _ hi
    refine ⟨by simpa using hlen, ⟨hwfg, ?_⟩, ?_, ?_⟩
    · refine forall_slots_set hi hwfs ⟨hwfb.1, ?_⟩
      intro h2 hh2
      simp at hh2
    · intro w
      have heq := map_sum_set (slotMapF fs w) ws i
        ⟨WState.idle loc2, [] ++ [CMsg.task (T.get ⟨next, hn⟩)], []⟩ _ hi
      have hm := hmap w
      have hts := taskSum_succ fs T next hn w
      simp only [sysMapF] at hm ⊢
      simp only [slotMapF, stMapF, cMsgF, wMsgF, List.map_cons, List.sum_cons,
        List.map_append, List.sum_append, List.map_nil, List.sum_nil] at heq
      simp only [nextOf, globOf] at hm ⊢
      omega
    · refine ⟨hn, hfw, ?_, ?_⟩
      · rw [drainCount_set_eq hi (isDrained_false_of_outbox_cons _ _ _ _)
          (isDrained_false_of_idle _ _ _)]
        exact hdc
      · exact forall_slots_set hi hall
          (Or.inl (Or.inl ⟨loc2, T.get ⟨next, hn⟩, by simp⟩))
  | cAckTerm ws i st inb outb next fin g hi hn =>
    obtain ⟨hnle, hfw, hdc, hall⟩ := hco
    obtain ⟨loc2, hst, hinb, houtb⟩ := slotOKA_ack_head (hall i _ hi)
    subst hst
    subst hinb
    subst houtb
    have hwfb := hwfs i _ hi
    refine ⟨by simpa using hlen, ⟨hwfg, ?_⟩, ?_, ?_⟩
    · refine forall_slots_set hi hwfs ⟨hwfb.1, ?_⟩
      intro h2 hh2
      simp at hh2
    · intro w
      have heq := map_sum_set (slotMapF fs w) ws i
        ⟨WState.idle loc2, [] ++ [CMsg.term], []⟩ _ hi
      have hm := hmap w
      simp only [sysMapF] at hm ⊢
      simp only [slotMapF, stMapF, cMsgF, wMsgF, List.map_cons, List.sum_cons,
        List.map_append, List.sum_append, List.map_nil, List.sum_nil] at heq
      simp only [nextOf, globOf] at hm ⊢
      omega
    · refine ⟨by omega, hfw, hlen ▸ lt_length_of_getElem?_some hi, ?_, ?_, ?_⟩
      · rw [drainCount_set_eq hi (isDrained_false_of_outbox_cons _ _ _ _)
          (isDrained_false_of_idle _ _ _)]
        exact hdc
      · intro slot hs
        rw [List.getElem?_set_self (lt_length_of_getElem?_some hi)] at hs
        have hsa : (⟨WState.idle loc2, [] ++ [CMsg.term], []⟩ : WSlot) = slot := by
          injection hs
        subst hsa
        exact Or.inl ⟨loc2, by simp⟩
      · intro j slot hj hji
        rw [List.getElem?_set_ne (fun he => hji he.symm)] at hj
        exact hall j slot hj
  | cHisto ws i st inb outb next fin g h hi =>
    obtain ⟨hnt, hfw, hiw, hdc, hslot, hall⟩ := hco
    obtain ⟨hst, hinb, houtb⟩ := waitP_histo_head (hslot _ hi)
    subst hst
    subst hinb
    subst houtb
    have hdc2 : drainCount ws = fin := hdc
    have hwfb := hwfs i _ hi
    have hwfh : WF h := hwfb.2 h (List.mem_cons_self _ _)
    have hglob : globOf (if fin + 1 < W then
        CState.waitAck next (fin + 1) (merge_histograms g h)
        else CState.doneC (merge_histograms g h)) = merge_histograms g h := by
      by_cases hf2 : fin + 1 < W <;> simp [hf2, globOf]
    have hnext : nextOf T.length (if fin + 1 < W then
        CState.waitAck next (fin + 1) (merge_histograms g h)
        else CState.doneC (merge_histograms g h)) = next := by
      by_cases hf2 : fin + 1 < W <;> simp [hf2, nextOf, hnt]
    refine ⟨by simpa using hlen, ⟨?_, ?_⟩, ?_, ?_⟩
    · rw [hglob]
      exact WF_merge hwfg hwfh
    · refine forall_slots_set hi hwfs ⟨?_, ?_⟩
      · intro loc2 hl2
        exact WState.noConfusion hl2
      · intro h2 hh2
        simp at hh2
    · intro w
      have heq := map_sum_set (slotMapF fs w) ws i ⟨WState.done, [], []⟩ _ hi
      have hm := hmap w
      have hfm : freqOf (merge_histograms g h) w = freqOf g w + freqOf h w := by
        rw [freqOf_merge, sumFreq_eq_freqOf hwfh.1]
      simp only [sysMapF] at hm ⊢
      simp only [slotMapF, stMapF, cMsgF, wMsgF, List.map_cons, List.sum_cons,
        List.map_append, List.sum_append, List.map_nil, List.sum_nil] at heq
      simp only [nextOf, globOf] at hm
      rw [hglob, hnext, hfm]
      omega
    · by_cases hf2 : fin + 1 < W
      · simp only [if_pos hf2]
        refine ⟨Nat.le_of_eq hnt, hf2, ?_, ?_⟩
        · rw [drainCount_set_succ hi (isDrained_false_of_outbox_cons _ _ _ _)
            isDrained_true_drained, hdc2]
        · intro j slot hj
          by_cases hij : i = j
          · subst hij
            rw [List.getElem?_set_self (lt_length_of_getElem?_some hi)] at hj
            have hsa : (⟨WState.done, [], []⟩ : WSlot) = slot := by injection hj
            subst hsa
            exact Or.inl (Or.inr (Or.inr rfl))
          · rw [List.getElem?_set_ne hij] at hj
            exact hall j slot hj (fun he => hij he.symm)
      · simp only [if_neg hf2]
        show drainCount (ws.set i ⟨WState.done, [], []⟩) = W
        rw [drainCount_set_succ hi (isDrained_false_of_outbox_cons _ _ _ _)
          isDrained_true_drained, hdc2]
        omega

theorem init_slot_sum (fs : FileSys) (T : List FPath) (w : Word) :
    ∀ W : Nat, (((List.range W).map (initSlot T)).map (slotMapF fs w)).sum =
      taskSum fs T (min W T.length) w := by
  intro W
  induction W with
  | zero => simp [taskSum]
  | succ W ih =>
    rw [List.range_succ, List.map_append, List.map_append, List.sum_append, ih]
    simp only [List.map_cons, List.map_nil, List.sum_cons, List.sum_nil]
    by_cases hW : W < T.length
    · have hmin : min (W + 1) T.length = min W T.length + 1 := by omega
      have hmin2 : min W T.length = W := by omega
      rw [hmin, hmin2, taskSum_succ fs T W hW w]
      unfold initSlot
      simp only [dif_pos hW]
      simp [slotMapF, stMapF, cMsgF, freqOf]
    · have hmin : min (W + 1) T.length = min W T.length := by omega
      rw [hmin]
      unfold initSlot
      simp only [dif_neg hW]
      simp [slotMapF, stMapF, cMsgF, freqOf]

theorem sysInv_init {fs : FileSys} {T : List FPath} {W : Nat} (hW : 1 ≤ W) :
    SysInv fs T W (initSys T W) := by
  refine ⟨by simp [initSys], ⟨WF_nil, ?_⟩, ?_, Nat.min_le_right _ _, hW, ?_, ?_⟩
  · intro j slot hj
    simp only [initSys] at hj
    rw [List.getElem?_map] at hj
    cases hr : (List.range W)[j]? with
    | none => rw [hr] at hj; simp at hj
    | some jj =>
      rw [hr] at hj
      simp only [Option.map] at hj
      have hj2 : initSlot T jj = slot := by injection hj
      subst hj2
      unfold initSlot
      by_cases hjt : jj < T.length
      · simp only [dif_pos hjt]
        refine ⟨?_, ?_⟩
        · intro loc hl
          have hle : [] = loc := by injection hl
          exact hle ▸ WF_nil
        · intro h2 hh2
          simp at hh2
      · simp only [dif_neg hjt]
        refine ⟨?_, ?_⟩
        · intro loc hl
          have hle : [] = loc := by injection hl
          exact hle ▸ WF_nil
        · intro h2 hh2
          simp at hh2
  · intro w
    simp only [sysMapF, initSys, globOf, nextOf, freqOf]
    rw [init_slot_sum]
    omega
  · simp only [initSys, drainCount]
    rw [List.countP_eq_zero]
    intro slot hmem
    rcases List.mem_map.mp hmem with ⟨jj, _, hjj⟩
    subst hjj
    unfold initSlot
    by_cases hjt : jj < T.length
    · simp [dif_pos hjt, isDrained_false_of_idle]
    · simp [dif_neg hjt, isDrained_false_of_idle]
  · intro j slot hj
    simp only [initSys] at hj
    rw [List.getElem?_map] at hj
    by_cases hjW : j < W
    · rw [List.getElem?_range hjW] at hj
      simp only [Option.map] at hj
      have hj2 : initSlot T j = slot := by injection hj
      subst hj2
      unfold initSlot
      by_cases hjt : j < T.length
      · simp only [dif_pos hjt]
        exact Or.inl (Or.inl ⟨[], T.get ⟨j, hjt⟩, rfl⟩)
      · simp only [dif_neg hjt]
        exact Or.inr ⟨Or.inl ⟨[], rfl⟩, by omega⟩
    · rw [List.getElem?_eq_none (by simpa using Nat.le_of_not_lt hjW)] at hj
      simp at hj

theorem sysInv_steps {fs : FileSys} {T : List FPath} {W : Nat} {s : Sys}
    (hW : 1 ≤ W) (hsteps : Steps fs T W (initSys T W) s) : SysInv fs T W s := by
  induction hsteps with
  | refl => exact sysInv_init hW
  | tail hst hstep ih => exact sysInv_step ih hstep

/-! ### Termination measure -/

/-- Weight of a coordinator-to-worker message still to be handled. -/
def cMsgPhi : CMsg → Nat
  | CMsg.task _ => 2
  | CMsg.term => 2

/-- Weight of a worker-to-coordinator message still to be handled. -/
def wMsgPhi : WMsg → Nat
  | WMsg.ack => 1
  | WMsg.histo _ => 1

/-- Weight of the messages around one worker. -/
def slotPhi (s : WSlot) : Nat :=
  (s.inbox.map cMsgPhi).sum + (s.outbox.map wMsgPhi).sum

/-- Weight of the coordinator's remaining work. -/
def coordPhi (Tlen W : Nat) : CState → Nat
  | CState.waitAck next fin _ => 3 * (Tlen - next) + 2 * (W - fin) + 2
  | CState.waitHisto _ next fin _ => 3 * (Tlen - next) + 2 * (W - fin)
  | CState.doneC _ => 0

/-- The termination measure: every step strictly decreases it, so every
execution of the protocol is finite. -/
def sysPhi (Tlen W : Nat) (s : Sys) : Nat :=
  coordPhi Tlen W s.coord + (s.ws.map slotPhi).sum

theorem sysPhi_decreases {fs : FileSys} {T : List FPath} {W : Nat} {s s2 : Sys}
    (hinv : SysInv fs T W s) (hstep : Step fs T W s s2) :
    sysPhi T.length W s2 < sysPhi T.length W s := by
  obtain ⟨hlen, hwf, hmap, hco⟩ := hinv
  cases hstep with
  | wTask c ws i loc p inb outb hi =>
    have heq := map_sum_set slotPhi ws i
      ⟨WState.idle (processFile loc (fs p)), inb, outb ++ [WMsg.ack]⟩ _ hi
    simp only [slotPhi, cMsgPhi, wMsgPhi, List.map_cons, List.sum_cons,
      List.map_append, List.sum_append, List.map_nil, List.sum_nil] at heq
    simp only [sysPhi]
    omega
  | wTerm c ws i loc inb outb hi =>
    have heq := map_sum_set slotPhi ws i
      ⟨WState.done, inb, outb ++ [WMsg.histo loc]⟩ _ hi
    simp only [slotPhi, cMsgPhi, wMsgPhi, List.map_cons, List.sum_cons,
      List.map_append, List.sum_append, List.map_nil, List.sum_nil] at heq
    simp only [sysPhi]
    omega
  | cAckTask ws i st inb outb next fin g hi hn =>
    have heq := map_sum_set slotPhi ws i
      ⟨st, inb ++ [CMsg.task (T.get ⟨next, hn⟩)], outb⟩ _ hi
    simp only [slotPhi, cMsgPhi, wMsgPhi, List.map_cons, List.sum_cons,
      List.map_append, List.sum_append, List.map_nil, List.sum_nil] at heq
    simp only [sysPhi, coordPhi]
    omega
  | cAckTerm ws i st inb outb next fin g hi hn =>
    have heq := map_sum_set slotPhi ws i ⟨st, inb ++ [CMsg.term], outb⟩ _ hi
    simp only [slotPhi, cMsgPhi, wMsgPhi, List.map_cons, List.sum_cons,
      List.map_append, List.sum_append, List.map_nil, List.sum_nil] at heq
    simp only [sysPhi, coordPhi]
    omega
  | cHisto ws i st inb outb next fin g h hi =>
    obtain ⟨hnt, hfw, hiw, hdc, hslot, hall⟩ := hco
    have heq := map_sum_set slotPhi ws i ⟨st, inb, outb⟩ _ hi
    simp only [slotPhi, cMsgPhi, wMsgPhi, List.map_cons, List.sum_cons,
      List.map_append, List.sum_append, List.map_nil, List.sum_nil] at heq
    by_cases hf2 : fin + 1 < W
    · simp only [sysPhi, if_pos hf2, coordPhi]
      omega
    · simp only [sysPhi, if_neg hf2, coordPhi]
      omega

/-! ### Progress and completion -/

theorem progress {fs : FileSys} {T : List FPath} {W : Nat} {s : Sys}
    (hWT : W ≤ T.length) (hinv : SysInv fs T W s)
    (hnd : ∀ g, s.coord ≠ CState.doneC g) : ∃ s2, Step fs T W s s2 := by
  obtain ⟨hlen, hwf, hmap, hco⟩ := hinv
  obtain ⟨c, ws⟩ := s
  cases c with
  | waitAck next fin g =>
    obtain ⟨hnle, hfw, hdc, hall⟩ := hco
    have hex : ∃ (j : Nat) (slot : WSlot), ws[j]? = some slot ∧ isDrained slot = false := by
      by_contra hem
      push_neg at hem
      have hful : drainCount ws = ws.length := by
        rw [drainCount, List.countP_eq_length]
        intro a ha
        rcases List.mem_iff_getElem?.mp ha with ⟨j, hj⟩
        have := hem j a hj
        simpa using this
      have hdc2 : drainCount ws = fin := hdc
      have hlen2 : ws.length = W := hlen
      omega
    obtain ⟨j, slot, hj, hnd2⟩ := hex
    have hph := hall j slot hj
    rcases hph with (hp | ha | hd) | ⟨hw, hTj⟩
    · obtain ⟨loc, p, rfl⟩ := hp
      exact ⟨_, Step.wTask _ ws j loc p [] [] hj⟩
    · obtain ⟨loc, rfl⟩ := ha
      by_cases hn : next < T.length
      · exact ⟨_, Step.cAckTask ws j _ [] [] next fin g hj hn⟩
      · exact ⟨_, Step.cAckTerm ws j _ [] [] next fin g hj hn⟩
    · rw [hd] at hnd2
      rw [isDrained_true_drained] at hnd2
      exact Bool.noConfusion hnd2
    · have hjlen := lt_length_of_getElem?_some hj
      have hlen2 : ws.length = W := hlen
      omega
  | waitHisto i next fin g =>
    obtain ⟨hnt, hfw, hiw, hdc, hslot, hall⟩ := hco
    have hilen : i < ws.length := by
      have hlen2 : ws.length = W := hlen
      omega
    obtain ⟨slot, hslotget⟩ : ∃ slot, ws[i]? = some slot :=
      ⟨ws.get ⟨i, hilen⟩, List.getElem?_eq_getElem hilen⟩
    have hph := hslot slot hslotget
    rcases hph with ⟨loc, rfl⟩ | ⟨h, rfl⟩
    · exact ⟨_, Step.wTerm _ ws i loc [] [] hslotget⟩
    · exact ⟨_, Step.cHisto ws i _ [] [] next fin g h hslotget⟩
  | doneC g => exact absurd rfl (hnd g)

theorem reach_done_aux {fs : FileSys} {T : List FPath} {W : Nat}
    (hWT : W ≤ T.length) :
    ∀ (n : Nat) (s : Sys), sysPhi T.length W s ≤ n → SysInv fs T W s →
      ∃ t g, Steps fs T W s t ∧ t.coord = CState.doneC g ∧ drainCount t.ws = W := by
  intro n
  induction n using Nat.strong_induction_on with
  | _ n ih =>
    intro s hphi hinv
    by_cases hdone : ∃ g, s.coord = CState.doneC g
    · obtain ⟨g, hg⟩ := hdone
      refine ⟨s, g, Relation.ReflTransGen.refl, hg, ?_⟩
      have hco := hinv.hco
      rw [hg] at hco
      exact hco
    · push_neg at hdone
      obtain ⟨s2, hstep⟩ := progress hWT hinv hdone
      have hinv2 := sysInv_step hinv hstep
      have hlt := sysPhi_decreases hinv hstep
      obtain ⟨t, g, hsteps, hcoord, hdc⟩ :=
        ih (sysPhi T.length W s2) (by omega) s2 (Nat.le_refl _) hinv2
      exact ⟨t, g, Relation.ReflTransGen.head hstep hsteps, hcoord, hdc⟩

/-! ### Single-process mode facts -/

theorem freqOf_foldl_processFile (fs : FileSys) :
    ∀ (paths : List FPath) (g : Histogram) (w : Word),
      freqOf (paths.foldl (fun g p => processFile g (fs p)) g) w =
        freqOf g w + (paths.map (fun p => freqOf (countFileH fs p) w)).sum := by
  intro paths
  induction paths with
  | nil => intro g w; simp
  | cons p rest ih =>
    intro g w
    simp only [List.foldl_cons, List.map_cons, List.sum_cons]
    rw [ih, freqOf_processFile]
    omega

theorem freqOf_runSingle (fs : FileSys) (T : List FPath) (w : Word) :
    freqOf (runSingle fs T) w = taskSum fs T T.length w := by
  unfold runSingle taskSum
  rw [freqOf_foldl_processFile, List.take_length]
  simp [freqOf]

theorem WF_foldl_processFile (fs : FileSys) :
    ∀ (paths : List FPath) (g : Histogram), WF g →
      WF (paths.foldl (fun g p => processFile g (fs p)) g) := by
  intro paths
  induction paths with
  | nil => intro g hg; exact hg
  | cons p rest ih =>
    intro g hg
    simp only [List.foldl_cons]
    exact ih _ (WF_processFile p hg)

theorem WF_runSingle (fs : FileSys) (T : List FPath) : WF (runSingle fs T) :=
  WF_foldl_processFile fs T [] WF_nil

/-- Number of alphanumeric token occurrences a file contributes (0 for an
unreadable file). -/
def tokenCount (fs : FileSys) (p : FPath) : Nat :=
  match fs p with
  | some s => (tokenize s).length
  | none => 0

theorem totalFreq_foldl_add_word : ∀ (ts : List Word) (h : Histogram),
    totalFreq (ts.foldl add_word_to_histogram h) = totalFreq h + ts.length := by
  intro ts
  induction ts with
  | nil => intro h; simp
  | cons t ts ih =>
    intro h
    simp only [List.foldl_cons, List.length_cons]
    rw [ih, add_word_eq_add_freq, totalFreq_add_freq]
    omega

theorem totalFreq_countFileH (fs : FileSys) (p : FPath) :
    totalFreq (countFileH fs p) = tokenCount fs p := by
  unfold countFileH tokenCount
  cases fs p with
  | none => rfl
  | some s =>
    simp only [count_words_in_file]
    rw [scanWords_eq_foldl, totalFreq_foldl_add_word]
    simp [totalFreq, tokenize]

theorem totalFreq_foldl_processFile (fs : FileSys) :
    ∀ (paths : List FPath) (g : Histogram),
      totalFreq (paths.foldl (fun g p => processFile g (fs p)) g) =
        totalFreq g + (paths.map (tokenCount fs)).sum := by
  intro paths
  induction paths with
  | nil => intro g; simp
  | cons p rest ih =>
    intro g
    simp only [List.foldl_cons, List.map_cons, List.sum_cons]
    rw [ih, processFile_eq_merge, totalFreq_merge, totalFreq_countFileH]
    omega

theorem totalFreq_runSingle (fs : FileSys) (T : List FPath) :
    totalFreq (runSingle fs T) = (T.map (tokenCount fs)).sum := by
  unfold runSingle
  rw [totalFreq_foldl_processFile]
  simp [totalFreq]

/-! ### From equal mappings to equal histograms -/

theorem mem_iff_freqOf {h : Histogram} (hwf : WF h) (e : WordFreq) :
    e ∈ h ↔ freqOf h e.word = e.frequency ∧ 1 ≤ e.frequency := by
  induction h with
  | nil =>
    simp only [List.not_mem_nil, false_iff, freqOf]
    intro hc
    omega
  | cons x rest ih =>
    have hxpos : 1 ≤ x.frequency := hwf.2 x (List.mem_cons_self _ _)
    have hknodup := hwf.1
    rw [keysOf_cons, List.nodup_cons] at hknodup
    have hwfrest : WF rest := ⟨hknodup.2, fun e he => hwf.2 e (List.mem_cons_of_mem _ he)⟩
    constructor
    · intro hmem
      rcases List.mem_cons.mp hmem with hmem | hmem
      · subst hmem
        simp [freqOf, hxpos]
      · have hne : ¬ x.word = e.word := by
          intro hc
          exact hknodup.1 (hc ▸ (List.mem_map.mpr ⟨e, hmem, rfl⟩))
        rw [freqOf, if_neg hne]
        exact (ih hwfrest).mp hmem
    · intro ⟨hfr, hpos⟩
      by_cases hx : x.word = e.word
      · rw [freqOf, if_pos hx] at hfr
        have hex : x = e := by
          cases x
          cases e
          simp only at hx hfr
          simp [hx, hfr]
        exact hex ▸ List.mem_cons_self _ _
      · rw [freqOf, if_neg hx] at hfr
        exact List.mem_cons_of_mem _ ((ih hwfrest).mpr ⟨hfr, hpos⟩)

theorem perm_of_freqOf_eq {A B : Histogram} (hA : WF A) (hB : WF B)
    (heq : ∀ w, freqOf A w = freqOf B w) : A.Perm B := by
  rw [List.perm_iff_count]
  intro e
  have hmem : e ∈ A ↔ e ∈ B := by
    rw [mem_iff_freqOf hA, mem_iff_freqOf hB, heq]
  have hnA : A.Nodup := List.Nodup.of_map _ hA.1
  have hnB : B.Nodup := List.Nodup.of_map _ hB.1
  by_cases hin : e ∈ A
  · rw [List.count_eq_one_of_mem hnA hin, List.count_eq_one_of_mem hnB (hmem.mp hin)]
  · rw [List.count_eq_zero_of_not_mem hin,
      List.count_eq_zero_of_not_mem (fun hc => hin (hmem.mpr hc))]

/-! ### Sorting and CSV output -/

/-- Bytewise lexicographic strict comparison of words, the order `strncmp`
induces on NUL-terminated word buffers (a proper prefix orders first because
the terminating NUL compares below every other byte). -/
def wordLtB : Word → Word → Bool
  | [], [] => false
  | [], _ :: _ => true
  | _ :: _, [] => false
  | a :: as, b :: bs =>
    if a.toNat < b.toNat then true
    else if b.toNat < a.toNat then false
    else wordLtB as bs

theorem wordLtB_cons (x y : Char) (xs ys : Word) :
    wordLtB (x :: xs) (y :: ys) =
      if x.toNat < y.toNat then true
      else if y.toNat < x.toNat then false else wordLtB xs ys := rfl

theorem wordLtB_asymm : ∀ (a b : Word), wordLtB a b = true → wordLtB b a = true → False := by
  intro a
  induction a with
  | nil =>
    intro b hab hba
    cases b with
    | nil => simp [wordLtB] at hab
    | cons y ys => simp [wordLtB] at hba
  | cons x xs ih =>
    intro b hab hba
    cases b with
    | nil => simp [wordLtB] at hab
    | cons y ys =>
      rw [wordLtB_cons] at hab hba
      by_cases h1 : x.toNat < y.toNat
      · have h2 : ¬ y.toNat < x.toNat := by omega
        simp [h1, h2] at hba
      · by_cases h2 : y.toNat < x.toNat
        · simp [h1, h2] at hab
        · simp [h1, h2] at hab hba
          exact ih ys hab hba

theorem wordLtB_eq_of_not : ∀ (a b : Word), wordLtB a b = false → wordLtB b a = false →
    a = b := by
  intro a
  induction a with
  | nil =>
    intro b hab _
    cases b with
    | nil => rfl
    | cons y ys => simp [wordLtB] at hab
  | cons x xs ih =>
    intro b hab hba
    cases b with
    | nil => simp [wordLtB] at hba
    | cons y ys =>
      rw [wordLtB_cons] at hab hba
      by_cases h1 : x.toNat < y.toNat
      · simp [h1] at hab
      · by_cases h2 : y.toNat < x.toNat
        · simp [h1, h2] at hba
        · simp [h1, h2] at hab hba
          have hxy : x = y := by
            have hn : x.toNat = y.toNat := by omega
            have hcast := congrArg Char.ofNat hn
            rwa [Char.ofNat_toNat, Char.ofNat_toNat] at hcast
          rw [hxy, ih ys hab hba]

theorem wordLtB_trans : ∀ (a b c : Word), wordLtB a b = true → wordLtB b c = true →
    wordLtB a c = true := by
  intro a
  induction a with
  | nil =>
    intro b c hab hbc
    cases c with
    | nil =>
      cases b with
      | nil => simp [wordLtB] at hab
      | cons y ys => simp [wordLtB] at hbc
    | cons z zs => rfl
  | cons x xs ih =>
    intro b c hab hbc
    cases b with
    | nil => simp [wordLtB] at hab
    | cons y ys =>
      cases c with
      | nil => simp [wordLtB] at hbc
      | cons z zs =>
        rw [wordLtB_cons] at hab hbc ⊢
        by_cases h1 : x.toNat < y.toNat
        · by_cases h2 : y.toNat < z.toNat
          · have h3 : x.toNat < z.toNat := by omega
            simp [h3]
          · by_cases h4 : z.toNat < y.toNat
            · simp [h2, h4] at hbc
            · have h3 : x.toNat < z.toNat := by omega
              simp [h3]
        · by_cases h5 : y.toNat < x.toNat
          · simp [h1, h5] at hab
          · simp [h1, h5] at hab
            by_cases h2 : y.toNat < z.toNat
            · have h3 : x.toNat < z.toNat := by omega
              simp [h3]
            · by_cases h4 : z.toNat < y.toNat
              · simp [h2, h4] at hbc
              · simp [h2, h4] at hbc
                have h3 : ¬ x.toNat < z.toNat := by omega
                have h6 : ¬ z.toNat < x.toNat := by omega
                simp [h3, h6]
                exact ih ys zs hab hbc

/-- The order realized by `qsort(..., compare_wordfreq)`: primarily the
bytewise word order; the frequency tiebreak makes it antisymmetric on
arbitrary entry lists (on a histogram words are unique, so the tiebreak never
fires and any comparison sort yields this same, unique word-ordered
permutation). -/
def wordFreqLe (x y : WordFreq) : Prop :=
  wordLtB x.word y.word = true ∨ (x.word = y.word ∧ x.frequency ≤ y.frequency)

instance : DecidableRel wordFreqLe := fun x y => by
  unfold wordFreqLe
  infer_instance

instance : IsTotal WordFreq wordFreqLe where
  total := by
    intro x y
    cases h1 : wordLtB x.word y.word with
    | true => exact Or.inl (Or.inl h1)
    | false =>
      cases h2 : wordLtB y.word x.word with
      | true => exact Or.inr (Or.inl h2)
      | false =>
        have hxy := wordLtB_eq_of_not _ _ h1 h2
        rcases Nat.le_total x.frequency y.frequency with hf | hf
        · exact Or.inl (Or.inr ⟨hxy, hf⟩)
        · exact Or.inr (Or.inr ⟨hxy.symm, hf⟩)

instance : IsTrans WordFreq wordFreqLe where
  trans := by
    intro x y z hxy hyz
    rcases hxy with h1 | ⟨he1, hf1⟩
    · rcases hyz with h2 | ⟨he2, hf2⟩
      · exact Or.inl (wordLtB_trans _ _ _ h1 h2)
      · exact Or.inl (by rw [← he2]; exact h1)
    · rcases hyz with h2 | ⟨he2, hf2⟩
      · exact Or.inl (by rw [he1]; exact h2)
      · exact Or.inr ⟨he1.trans he2, Nat.le_trans hf1 hf2⟩

instance : IsAntisymm WordFreq wordFreqLe where
  antisymm := by
    intro x y hxy hyx
    rcases hxy with h1 | ⟨he1, hf1⟩
    · rcases hyx with h2 | ⟨he2, hf2⟩
      · exact (wordLtB_asymm _ _ h1 h2).elim
      · exfalso
        rw [he2] at h1
        exact wordLtB_asymm _ _ h1 h1
    · rcases hyx with h2 | ⟨he2, hf2⟩
      · exfalso
        rw [he1] at h2
        exact wordLtB_asymm _ _ h2 h2
      · have hf : x.frequency = y.frequency := Nat.le_antisymm hf1 hf2
        cases x
        cases y
        simp only at he1 hf
        simp [he1, hf]

/-- `sort_histogram_by_word`: `qsort` with `compare_wordfreq` sorts the
entries by word. Any comparison sort returns a permutation sorted under the
comparator; since a histogram's words are pairwise distinct, that output is
unique, and insertion sort under `wordFreqLe` realizes it. -/
def sort_histogram_by_word (h : Histogram) : Histogram :=
  List.insertionSort wordFreqLe h

theorem sort_eq_of_freqOf_eq {A B : Histogram} (hA : WF A) (hB : WF B)
    (heq : ∀ w, freqOf A w = freqOf B w) :
    sort_histogram_by_word A = sort_histogram_by_word B :=
  List.eq_of_perm_of_sorted
    ((List.perm_insertionSort wordFreqLe A).trans
      ((perm_of_freqOf_eq hA hB heq).trans (List.perm_insertionSort wordFreqLe B).symm))
    (List.sorted_insertionSort wordFreqLe A) (List.sorted_insertionSort wordFreqLe B)

/-- One CSV data row, `fprintf(fp, "%s,%d\n", word, frequency)`, without its
trailing newline. -/
def csv_line (e : WordFreq) : String :=
  String.mk e.word ++ "," ++ Nat.repr e.frequency

/-- `write_histogram_to_csv`: the lines written to the (truncated/overwritten)
output file — the header, then one row per entry in histogram order. -/
def write_histogram_to_csv (h : Histogram) : List String :=
  "word,frequency" :: h.map csv_line

/-- The output artifact produced from a final global histogram: sorted by
word, then serialized (main.c lines 284–285). -/
def finalCsv (g : Histogram) : List String :=
  write_histogram_to_csv (sort_histogram_by_word g)

/-! ### The final global histogram of a protocol run -/

theorem final_histogram_spec {fs : FileSys} {T : List FPath} {W : Nat} {s : Sys}
    {g : Histogram} (hW : 1 ≤ W) (hsteps : Steps fs T W (initSys T W) s)
    (hg : s.coord = CState.doneC g) :
    WF g ∧ ∀ w, freqOf g w = freqOf (runSingle fs T) w := by
  have hinv := sysInv_steps hW hsteps
  obtain ⟨hlen, ⟨hwfg, hwfs⟩, hmap, hco⟩ := hinv
  obtain ⟨c, ws⟩ := s
  have hgc : c = CState.doneC g := hg
  subst hgc
  have hdrain : drainCount ws = W := hco
  have hlen2 : ws.length = W := hlen
  refine ⟨hwfg, ?_⟩
  intro w
  have hm := hmap w
  have hz : (ws.map (slotMapF fs w)).sum = 0 := by
    apply List.sum_eq_zero
    intro x hx
    rcases List.mem_map.mp hx with ⟨slot, hslot, hval⟩
    rcases List.mem_iff_getElem?.mp hslot with ⟨j, hj⟩
    have hdr := drained_of_drainCount_eq_length (by rw [hdrain, hlen2]) j slot hj
    subst hdr
    subst hval
    rfl
  simp only [sysMapF, globOf, nextOf] at hm
  rw [hz] at hm
  rw [freqOf_runSingle]
  omega

/-! ### Protocol claims -/

theorem slot_phase_of_inv {fs : FileSys} {T : List FPath} {W : Nat} {s : Sys}
    (hinv : SysInv fs T W s) :
    ∀ (j : Nat) (slot : WSlot), s.ws[j]? = some slot → activeP slot ∨ waitP slot := by
  obtain ⟨hlen, _, _, hco⟩ := hinv
  obtain ⟨c, ws⟩ := s
  cases c with
  | waitAck next fin g =>
    obtain ⟨_, _, _, hall⟩ := hco
    intro j slot hj
    rcases hall j slot hj with ha | ⟨hw, _⟩
    · exact Or.inl ha
    · exact Or.inr hw
  | waitHisto i next fin g =>
    obtain ⟨_, _, _, _, hslot, hall⟩ := hco
    intro j slot hj
    by_cases hji : j = i
    · subst hji
      exact Or.inr (hslot slot hj)
    · rcases hall j slot hj hji with ha | ⟨hw, _⟩
      · exact Or.inl ha
      · exact Or.inr hw
  | doneC g =>
    intro j slot hj
    have hlen2 : ws.length = W := hlen
    have hdr := drained_of_drainCount_eq_length (by rw [hlen2]; exact hco) j slot hj
    exact Or.inl (Or.inr (Or.inr hdr))

theorem histo_sender_done {slot : WSlot} {h : Histogram}
    (hph : activeP slot ∨ waitP slot)
    (hmem : WMsg.histo h ∈ slot.outbox) : slot.st = WState.done := by
  rcases hph with (⟨loc, p, rfl⟩ | ⟨loc, rfl⟩ | rfl) | (⟨loc, rfl⟩ | ⟨h2, rfl⟩)
  · simp at hmem
  · simp at hmem
  · simp at hmem
  · simp at hmem
  · rfl

/-- The everywhere-unreadable file system, for concrete executions. -/
def fsNone : FileSys := fun _ => none

/-- The configuration the coordinator is stuck in forever when started with
an empty task list and one worker: the worker was terminated in priming and
has sent its (empty) histogram, but the coordinator blocks receiving a
ready-signal that no one will ever send. -/
def c1Stuck : Sys :=
  ⟨CState.waitAck 0 0 [], [⟨WState.done, [], [WMsg.histo []]⟩]⟩

theorem c1_no_step (fs : FileSys) : ∀ s2, ¬ Step fs [] 1 c1Stuck s2 := by
  intro s2 hstep
  cases hstep with
  | wTask c ws i loc p inb outb hi =>
    cases i with
    | zero => simp [c1Stuck] at hi
    | succ i => simp [c1Stuck] at hi
  | wTerm c ws i loc inb outb hi =>
    cases i with
    | zero => simp [c1Stuck] at hi
    | succ i => simp [c1Stuck] at hi
  | cAckTask ws i st inb outb next fin g hi hn =>
    cases i with
    | zero => simp [c1Stuck] at hi
    | succ i => simp [c1Stuck] at hi
  | cAckTerm ws i st inb outb next fin g hi hn =>
    cases i with
    | zero => simp [c1Stuck] at hi
    | succ i => simp [c1Stuck] at hi

theorem c1_reach (fs : FileSys) :
    ∀ s, Steps fs [] 1 (initSys [] 1) s → s = initSys [] 1 ∨ s = c1Stuck := by
  intro s hsteps
  induction hsteps with
  | refl => exact Or.inl rfl
  | tail hst hstep ih =>
    rcases ih with hmid | hmid
    · subst hmid
      right
      cases hstep with
      | wTask c ws i loc p inb outb hi =>
        cases i with
        | zero => simp [initSys, initSlot] at hi
        | succ i => simp [initSys, initSlot, List.range_succ] at hi
      | wTerm c ws i loc inb outb hi =>
        cases i with
        | zero =>
          have hval : ((List.range 1).map (initSlot ([] : List FPath)))[0]? =
              some ⟨WState.idle [], [CMsg.term], []⟩ := rfl
          rw [hval] at hi
          have h3 : (⟨WState.idle [], [CMsg.term], []⟩ : WSlot) =
              ⟨WState.idle loc, CMsg.term :: inb, outb⟩ := Option.some.inj hi
          injection h3 with hst hinb houtb
          injection hst with hloc
          injection hinb with hhd htl
          subst hloc
          subst htl
          subst houtb
          decide
        | succ i => simp [initSys, initSlot, List.range_succ] at hi
      | cAckTask ws i st inb outb next fin g hi hn =>
        cases i with
        | zero => simp [initSys, initSlot] at hi
        | succ i => simp [initSys, initSlot, List.range_succ] at hi
      | cAckTerm ws i st inb outb next fin g hi hn =>
        cases i with
        | zero => simp [initSys, initSlot] at hi
        | succ i => simp [initSys, initSlot, List.range_succ] at hi
    · subst hmid
      exact absurd hstep (c1_no_step fs _)

/-- C1 (code bug, Scenario C). With an empty task list and one worker the
coordinator does terminate every worker in priming and its global histogram
stays empty, but the run never completes: the workers answer the termination
signal with their histograms (`TAG_HISTOGRAM_DATA_COUNT`), while the reactive
loop blocks forever in `MPI_Recv(..., TAG_PROCESSED_FILE_ACK, ...)` — a tag no
worker will ever send, since no worker ever received a task. The coordinator
never exits the loop, so the CSV-writing code after it is never reached: no
reachable configuration has the coordinator out of its loop, and the sole
stuck reachable configuration still has the coordinator waiting for a
ready-signal. -/
theorem c1_empty_tasklist_deadlocks (fs : FileSys) :
    (∀ s, Steps fs [] 1 (initSys [] 1) s → ∀ g, s.coord ≠ CState.doneC g) ∧
    Steps fs [] 1 (initSys [] 1) c1Stuck ∧
    (∀ s2, ¬ Step fs [] 1 c1Stuck s2) ∧
    c1Stuck.coord = CState.waitAck 0 0 [] := by
  refine ⟨?_, ?_, c1_no_step fs, rfl⟩
  · intro s hs g hc
    rcases c1_reach fs s hs with rfl | rfl
    · simp [initSys] at hc
    · simp [c1Stuck] at hc
  · exact Relation.ReflTransGen.single (Step.wTerm _ _ 0 [] [] [] rfl)

/-- Witness for C1 at the everywhere-unreadable file system. -/
theorem c1_empty_tasklist_deadlocks_witness :
    Steps fsNone [] 1 (initSys [] 1) (initSys [] 1) ∧
    (∀ g, (initSys [] 1).coord ≠ CState.doneC g) :=
  ⟨Relation.ReflTransGen.refl,
   (c1_empty_tasklist_deadlocks fsNone).1 _ Relation.ReflTransGen.refl⟩

/-- C2 (amended). First conjunct: provided no worker is terminated during
priming — that is, there are at least as many tasks as workers (`W ≤ |T|`) —
the reactive loop ends after every worker's final histogram has been drained
exactly once: from any reachable configuration the run reaches the
out-of-loop state with all `W` workers drained. Second conjunct: every step
strictly decreases the measure, so every execution is finite. Third and
fourth conjuncts, holding unconditionally in multi-worker mode (no proviso on
the task count): termination is always coupled to the drain — the
coordinator waits for a histogram only while the worker it has just sent the
termination signal to still holds that signal or has its histogram in
flight, and a worker's histogram is in flight only after the worker has
consumed the termination signal and exited. -/
theorem c2_termination_coupled_drain (fs : FileSys) (T : List FPath) (W : Nat)
    (hW : 1 ≤ W) :
    (W ≤ T.length → ∀ s, Steps fs T W (initSys T W) s →
       ∃ t g, Steps fs T W s t ∧ t.coord = CState.doneC g ∧ drainCount t.ws = W) ∧
    (∀ s s2, Steps fs T W (initSys T W) s → Step fs T W s s2 →
       sysPhi T.length W s2 < sysPhi T.length W s) ∧
    (∀ s, Steps fs T W (initSys T W) s → ∀ i next fin g,
       s.coord = CState.waitHisto i next fin g →
       ∃ slot, s.ws[i]? = some slot ∧ waitP slot) ∧
    (∀ s, Steps fs T W (initSys T W) s → ∀ (j : Nat) (slot : WSlot) (h : Histogram),
       s.ws[j]? = some slot → WMsg.histo h ∈ slot.outbox → slot.st = WState.done) := by
  refine ⟨?_, ?_, ?_, ?_⟩
  · intro hWT s hs
    exact reach_done_aux hWT (sysPhi T.length W s) s (Nat.le_refl _) (sysInv_steps hW hs)
  · intro s s2 hs hstep
    exact sysPhi_decreases (sysInv_steps hW hs) hstep
  · intro s hs i next fin g hcoord
    have hinv := sysInv_steps hW hs
    obtain ⟨hlen, hwf2, hmap2, hco⟩ := hinv
    obtain ⟨c, ws2⟩ := s
    have hcc : c = CState.waitHisto i next fin g := hcoord
    subst hcc
    obtain ⟨hnt, hfw, hiw, hdc, hslot, hall⟩ := hco
    have hlen2 : ws2.length = W := hlen
    have hilen : i < ws2.length := by omega
    exact ⟨ws2.get ⟨i, hilen⟩, List.getElem?_eq_getElem hilen,
      hslot _ (List.getElem?_eq_getElem hilen)⟩
  · intro s hs j slot h hj hmem
    exact histo_sender_done (slot_phase_of_inv (sysInv_steps hW hs) j slot hj) hmem

/-- Witness for C2 at one worker and one (unreadable) task. -/
theorem c2_termination_coupled_drain_witness :
    ((1 : Nat) ≤ 1 ∧ 1 ≤ ([[('a' : Char)]] : List FPath).length) ∧
    (∃ t g, Steps fsNone [['a']] 1 (initSys [['a']] 1) t ∧
       t.coord = CState.doneC g ∧ drainCount t.ws = 1) :=
  ⟨⟨by decide, by decide⟩,
   (c2_termination_coupled_drain fsNone [['a']] 1 (by decide)).1 (by decide) _
     Relation.ReflTransGen.refl⟩

/-- The stuck configuration reached with one task and two workers: worker 1
was terminated during priming and sent its histogram, which is never drained;
worker 0 was drained; the coordinator blocks forever awaiting a ready-signal. -/
def c2Stuck : Sys :=
  ⟨CState.waitAck 1 1 [],
   [⟨WState.done, [], []⟩, ⟨WState.done, [], [WMsg.histo []]⟩]⟩

theorem c2_counter_steps : Steps fsNone [['a']] 2 (initSys [['a']] 2) c2Stuck := by
  have h1 : Step fsNone [['a']] 2 (initSys [['a']] 2)
      ⟨CState.waitAck 1 0 [],
       [⟨WState.idle [], [], [WMsg.ack]⟩, ⟨WState.idle [], [CMsg.term], []⟩]⟩ :=
    Step.wTask _ _ 0 [] ['a'] [] [] rfl
  have h2 : Step fsNone [['a']] 2
      ⟨CState.waitAck 1 0 [],
       [⟨WState.idle [], [], [WMsg.ack]⟩, ⟨WState.idle [], [CMsg.term], []⟩]⟩
      ⟨CState.waitHisto 0 1 0 [],
       [⟨WState.idle [], [CMsg.term], []⟩, ⟨WState.idle [], [CMsg.term], []⟩]⟩ :=
    Step.cAckTerm _ 0 _ [] [] 1 0 [] rfl (by decide)
  have h3 : Step fsNone [['a']] 2
      ⟨CState.waitHisto 0 1 0 [],
       [⟨WState.idle [], [CMsg.term], []⟩, ⟨WState.idle [], [CMsg.term], []⟩]⟩
      ⟨CState.waitHisto 0 1 0 [],
       [⟨WState.done, [], [WMsg.histo []]⟩, ⟨WState.idle [], [CMsg.term], []⟩]⟩ :=
    Step.wTerm _ _ 0 [] [] [] rfl
  have h4 : Step fsNone [['a']] 2
      ⟨CState.waitHisto 0 1 0 [],
       [⟨WState.done, [], [WMsg.histo []]⟩, ⟨WState.idle [], [CMsg.term], []⟩]⟩
      ⟨CState.waitAck 1 1 [],
       [⟨WState.done, [], []⟩, ⟨WState.idle [], [CMsg.term], []⟩]⟩ :=
    Step.cHisto _ 0 _ [] [] 1 0 [] [] rfl
  have h5 : Step fsNone [['a']] 2
      ⟨CState.waitAck 1 1 [],
       [⟨WState.done, [], []⟩, ⟨WState.idle [], [CMsg.term], []⟩]⟩ c2Stuck :=
    Step.wTerm _ _ 1 [] [] [] rfl
  exact Relation.ReflTransGen.head h1 (Relation.ReflTransGen.head h2
    (Relation.ReflTransGen.head h3 (Relation.ReflTransGen.head h4
      (Relation.ReflTransGen.single h5))))

theorem c2_counter_no_step : ∀ s2, ¬ Step fsNone [['a']] 2 c2Stuck s2 := by
  intro s2 hstep
  cases hstep with
  | wTask c ws i loc p inb outb hi =>
    cases i with
    | zero => simp [c2Stuck] at hi
    | succ i =>
      cases i with
      | zero => simp [c2Stuck] at hi
      | succ i => simp [c2Stuck] at hi
  | wTerm c ws i loc inb outb hi =>
    cases i with
    | zero => simp [c2Stuck] at hi
    | succ i =>
      cases i with
      | zero => simp [c2Stuck] at hi
      | succ i => simp [c2Stuck] at hi
  | cAckTask ws i st inb outb next fin g hi hn =>
    cases i with
    | zero => simp [c2Stuck] at hi
    | succ i =>
      cases i with
      | zero => simp [c2Stuck] at hi
      | succ i => simp [c2Stuck] at hi
  | cAckTerm ws i st inb outb next fin g hi hn =>
    cases i with
    | zero => simp [c2Stuck] at hi
    | succ i =>
      cases i with
      | zero => simp [c2Stuck] at hi
      | succ i => simp [c2Stuck] at hi

/-- C2 counterexample. With one task and two workers (fewer tasks than
workers), the system reaches a stuck configuration in which the reactive loop
has not ended — the coordinator is blocked waiting for a ready-signal — and
only one of the two workers has ever been drained: worker 1, terminated
during priming, sent its histogram but the coordinator never receives it. So
the claim that the loop ends after every worker has been drained exactly once
fails as stated. -/
theorem c2_counterexample_priming_terminated_worker :
    Steps fsNone [['a']] 2 (initSys [['a']] 2) c2Stuck ∧
    (∀ s2, ¬ Step fsNone [['a']] 2 c2Stuck s2) ∧
    (∀ g, c2Stuck.coord ≠ CState.doneC g) ∧
    drainCount c2Stuck.ws = 1 :=
  ⟨c2_counter_steps, c2_counter_no_step, by intro g hc; simp [c2Stuck] at hc, by decide⟩

/-- A completed run with one worker and one (unreadable) task, ending with
the coordinator out of the loop holding the empty global histogram. -/
def exampleDone : Sys := ⟨CState.doneC [], [⟨WState.done, [], []⟩]⟩

theorem example_run : Steps fsNone [['a']] 1 (initSys [['a']] 1) exampleDone := by
  have h1 : Step fsNone [['a']] 1 (initSys [['a']] 1)
      ⟨CState.waitAck 1 0 [], [⟨WState.idle [], [], [WMsg.ack]⟩]⟩ :=
    Step.wTask _ _ 0 [] ['a'] [] [] rfl
  have h2 : Step fsNone [['a']] 1
      ⟨CState.waitAck 1 0 [], [⟨WState.idle [], [], [WMsg.ack]⟩]⟩
      ⟨CState.waitHisto 0 1 0 [], [⟨WState.idle [], [CMsg.term], []⟩]⟩ :=
    Step.cAckTerm _ 0 _ [] [] 1 0 [] rfl (by decide)
  have h3 : Step fsNone [['a']] 1
      ⟨CState.waitHisto 0 1 0 [], [⟨WState.idle [], [CMsg.term], []⟩]⟩
      ⟨CState.waitHisto 0 1 0 [], [⟨WState.done, [], [WMsg.histo []]⟩]⟩ :=
    Step.wTerm _ _ 0 [] [] [] rfl
  have h4 : Step fsNone [['a']] 1
      ⟨CState.waitHisto 0 1 0 [], [⟨WState.done, [], [WMsg.histo []]⟩]⟩
      exampleDone :=
    Step.cHisto _ 0 _ [] [] 1 0 [] [] rfl
  exact Relation.ReflTransGen.head h1 (Relation.ReflTransGen.head h2
    (Relation.ReflTransGen.head h3 (Relation.ReflTransGen.single h4)))

/-- C4. Conservation: for every input file set, the total frequency summed
over the final global histogram equals the total number of alphanumeric token
occurrences across all readable input files — in single-process mode
(worker count 0, first conjunct) and in multi-worker mode for every worker
count `W ≥ 1`, every execution and every interleaving (second conjunct). -/
theorem c4_conservation (fs : FileSys) (T : List FPath) (W : Nat) (s : Sys)
    (g : Histogram) (hW : 1 ≤ W) (hsteps : Steps fs T W (initSys T W) s)
    (hg : s.coord = CState.doneC g) :
    totalFreq (runSingle fs T) = (T.map (tokenCount fs)).sum ∧
    totalFreq g = (T.map (tokenCount fs)).sum := by
  refine ⟨totalFreq_runSingle fs T, ?_⟩
  obtain ⟨hwfg, hfreq⟩ := final_histogram_spec hW hsteps hg
  have hperm := perm_of_freqOf_eq hwfg (WF_runSingle fs T) hfreq
  calc totalFreq g = totalFreq (runSingle fs T) := by
        unfold totalFreq
        exact (hperm.map (fun e => e.frequency)).sum_eq
    _ = (T.map (tokenCount fs)).sum := totalFreq_runSingle fs T

/-- Witness for C4: a completed two-process run over one unreadable file. -/
theorem c4_conservation_witness :
    ((1 : Nat) ≤ 1 ∧
      Steps fsNone [[('a' : Char)]] 1 (initSys [['a']] 1) exampleDone ∧
      exampleDone.coord = CState.doneC []) ∧
    (totalFreq (runSingle fsNone [['a']]) =
        (([['a']] : List FPath).map (tokenCount fsNone)).sum ∧
     totalFreq [] = (([['a']] : List FPath).map (tokenCount fsNone)).sum) :=
  ⟨⟨by decide, example_run, rfl⟩,
   c4_conservation fsNone [['a']] 1 exampleDone [] (by decide) example_run rfl⟩

/-- C5. The final CSV is a pure function of the input contents: the CSV
produced from the final global histogram of any multi-worker execution (any
worker count `W ≥ 1`, any dispatch interleaving) is byte for byte the CSV
produced by the single-process mode over the same file list — covering
Scenario B and the row-order purity property. -/
theorem c5_csv_pure_function_of_content (fs : FileSys) (T : List FPath)
    (W : Nat) (s : Sys) (g : Histogram) (hW : 1 ≤ W)
    (hsteps : Steps fs T W (initSys T W) s) (hg : s.coord = CState.doneC g) :
    finalCsv g = finalCsv (runSingle fs T) := by
  obtain ⟨hwfg, hfreq⟩ := final_histogram_spec hW hsteps hg
  unfold finalCsv
  rw [sort_eq_of_freqOf_eq hwfg (WF_runSingle fs T) hfreq]

/-- Witness for C5: the completed run of `example_run`. -/
theorem c5_csv_pure_function_of_content_witness :
    ((1 : Nat) ≤ 1 ∧
      Steps fsNone [[('a' : Char)]] 1 (initSys [['a']] 1) exampleDone ∧
      exampleDone.coord = CState.doneC []) ∧
    finalCsv [] = finalCsv (runSingle fsNone [['a']]) :=
  ⟨⟨by decide, example_run, rfl⟩,
   c5_csv_pure_function_of_content fsNone [['a']] 1 exampleDone [] (by decide)
     example_run rfl⟩
